import Mathlib

/-!
Verification of the navigation-mesh / pathfinding core of the `age-of-sail`
repository (`src/map.rs`, `src/graph.rs`).

Modelling conventions
* Rust `Point2<i32>` becomes `PtZ` (integer coordinates, `ℤ`).
  Rust `Point2<f32>` / `Vector2<f32>` become `PtF` (exact fractions of
  integers, kernel-computable) inside the triangulation pipeline, which is
  arithmetic-only, and `PtR` (reals) in the query API and in A*, which use
  square roots (`distance`, `normalize`).  `f32` arithmetic is idealised as
  exact arithmetic.
* `Fr` is an unnormalised fraction `n / d`: all its operations are plain
  integer arithmetic (no gcd), so concrete runs of the pipeline reduce inside
  the kernel.  Comparisons are sign tests of cross-multiplied integers and
  equality is value equality, exactly as for the rational numbers the
  fractions denote (denominators stay nonzero: every division the pipeline
  performs on a zero denominator is guarded, see next point).
* `f32` division by zero produces `inf`/`NaN` in Rust: it does not panic, and
  every comparison against the result is false.  At the spots in `intersect` /
  `intersect_forgiving` where the source can divide by zero (a zero-length
  direction, giving `0.0/0.0 = NaN`), the embedding guards the division and
  returns the branch the NaN comparisons would take.  `Fr.div` by a zero
  value returns `0` like `ℚ`; no claim below depends on such a division.
* The ear-search inside test of `Map::new` evaluates `intersect` at
  `u + 0.01*(w-u).normalize()`, whose coordinates live in `ℚ(√m)` with
  `m = |w-u|²`; `Qr` represents `a + b·√m` exactly.
* Rust `HashMap` / `HashSet` iteration order is not specified; the embedding
  models the containers as insertion-ordered association lists.  Where a
  claim depends on the iteration order (`corners_and_edges`), the order is
  exposed as an explicit reordering parameter.
* Fallible operations (`unwrap`, `HashMap` indexing, slice indexing) are
  modelled with `Option`: `none` is a panic.
-/

set_option maxHeartbeats 1000000

namespace AoS

/-! ### Kernel-computable exact fractions -/

/-- Unnormalised fraction `n / d` over `ℤ`.  No gcd reduction is performed, so
all operations are kernel-computable integer arithmetic. -/
structure Fr where
  n : ℤ
  d : ℤ
deriving Repr

/-- Embed an integer. -/
def Fr.ofInt (k : ℤ) : Fr := ⟨k, 1⟩

instance : OfNat Fr k := ⟨⟨(k : ℤ), 1⟩⟩
instance : Add Fr := ⟨fun x y => ⟨x.n * y.d + y.n * x.d, x.d * y.d⟩⟩
instance : Sub Fr := ⟨fun x y => ⟨x.n * y.d - y.n * x.d, x.d * y.d⟩⟩
instance : Mul Fr := ⟨fun x y => ⟨x.n * y.n, x.d * y.d⟩⟩
instance : Neg Fr := ⟨fun x => ⟨-x.n, x.d⟩⟩

/-- Division; a zero divisor yields `0` (like `ℚ`; all reachable divisions of
the pipeline are on nonzero divisors, see the header). -/
instance : Div Fr := ⟨fun x y => if y.n = 0 then ⟨0, 1⟩ else ⟨x.n * y.d, x.d * y.n⟩⟩

/-- The denoted rational. -/
def Fr.val (x : Fr) : ℚ := (x.n : ℚ) / (x.d : ℚ)

/-- Sign test `0 ≤ n/d`, as an integer sign test (valid for `d ≠ 0`). -/
def Fr.isNonneg (x : Fr) : Bool := decide (0 ≤ x.n * x.d)

/-- Value comparison `x ≤ y`. -/
def Fr.le (x y : Fr) : Bool := (y - x).isNonneg

/-- Value comparison `x < y`. -/
def Fr.lt (x y : Fr) : Bool := !(Fr.le y x)

/-- Value equality `x = y` (cross-multiplied). -/
def Fr.beq (x y : Fr) : Bool := decide (x.n * y.d = y.n * x.d)

/-- Absolute value. -/
def Fr.abs (x : Fr) : Fr := ⟨|x.n|, |x.d|⟩

/-- Rust `f32::round` (round half away from zero) on a fraction. -/
def Fr.toInt (x : Fr) : ℤ :=
  let n := if x.d < 0 then -x.n else x.n
  let d := if x.d < 0 then -x.d else x.d
  if 0 ≤ n then (2 * n + d).fdiv (2 * d) else -((2 * -n + d).fdiv (2 * d))

/-! ### Geometric primitives (`map.rs` free functions) -/

/-- Integer point, Rust `Point2<i32>`. -/
structure PtZ where
  x : ℤ
  y : ℤ
deriving DecidableEq, Repr

/-- Fractional point/vector, modelling `Point2<f32>` / `Vector2<f32>` in the
triangulation pipeline. -/
structure PtF where
  x : Fr
  y : Fr
deriving Repr

instance : Add PtF := ⟨fun p q => ⟨p.x + q.x, p.y + q.y⟩⟩
instance : Sub PtF := ⟨fun p q => ⟨p.x - q.x, p.y - q.y⟩⟩

/-- Value equality of fractional points (`f32` `==` on both coordinates). -/
def PtF.beq (p q : PtF) : Bool := p.x.beq q.x && p.y.beq q.y

/-- Scalar multiplication on `PtF`. -/
def smulF (c : Fr) (p : PtF) : PtF := ⟨c * p.x, c * p.y⟩

/-- Rust `fn cross_2d`. -/
def cross2d (v w : PtF) : Fr := v.x * w.y - v.y * w.x

/-- Dot product. -/
def dotF (v w : PtF) : Fr := v.x * w.x + v.y * w.y

/-- Rust `fn to_f32`. -/
def toF (p : PtZ) : PtF := ⟨Fr.ofInt p.x, Fr.ofInt p.y⟩

/-- Rust `fn to_i32` (componentwise `f32::round` then cast). -/
def toZ (p : PtF) : PtZ := ⟨p.x.toInt, p.y.toInt⟩

/-- Squared euclidean distance of fractional points. -/
def dist2F (p q : PtF) : Fr := (p.x - q.x) * (p.x - q.x) + (p.y - q.y) * (p.y - q.y)

/-- Rust `struct Edge(Point2<i32>, Point2<i32>)`. -/
structure EdgeZ where
  a : PtZ
  b : PtZ
deriving DecidableEq, Repr

/-- Rust `struct EdgeF32(Point2<f32>, Point2<f32>)`. -/
structure EdgeF where
  a : PtF
  b : PtF
deriving Repr

/-- Value equality of `EdgeF32` (its `PartialEq`). -/
def EdgeF.beq (e f : EdgeF) : Bool := e.a.beq f.a && e.b.beq f.b

/-- Rust `const COORDINATE_MAX: f32 = 10000.000`. -/
def COORDINATE_MAX : Fr := ⟨10000, 1⟩

/-- Rust `fn intersect` (strict segment intersection).  The source divides by
`a_direction.dot(&a_direction)` in the colinear branch; when that denominator
is zero the numerators are also zero, the Rust quotients are NaN and all the
range comparisons are false, hence the guard returning `false`. -/
def intersect (aS aD bS bD : PtF) : Bool :=
  let c := cross2d aD bD
  if c.beq 0 then
    if (cross2d (bS - aS) aD).beq 0 then
      if (dotF aD aD).beq 0 then false
      else
        let t0 := dotF (bS - aS) aD / dotF aD aD
        let t1 := t0 + dotF bD aD / dotF aD aD
        t1.le 1 && Fr.le 0 t1 && Fr.le 0 t0 && t0.le 1
    else false
  else
    if (aS.beq bS || aS.beq (bS + bD)) || ((aS + aD).beq bS || (aS + aD).beq (bS + bD)) then
      false
    else
      let t := cross2d (bS - aS) (smulF (Fr.ofInt 1 / c) bD)
      let u := cross2d (bS - aS) (smulF (Fr.ofInt 1 / c) aD)
      Fr.le 0 t && t.le 1 && Fr.le 0 u && u.le 1

/-- Rust `fn intersect_forgiving` (epsilon-tolerant intersection), with the
same NaN guard as `intersect` in the colinear branch. -/
def intersectForgiving (aS aD bS bD : PtF) : Option PtF :=
  let c := cross2d aD bD
  let eps : Fr := ⟨1, 100⟩
  if c.beq 0 then
    if (cross2d (bS - aS) aD).beq 0 then
      if (dotF aD aD).beq 0 then none
      else
        let t0 := dotF (bS - aS) aD / dotF aD aD
        let t1 := t0 + dotF bD aD / dotF aD aD
        if t1.le (1 + eps) && (0 - eps).le t1 && (0 - eps).le t0 && t0.le (1 + eps) then
          some (aS + smulF t0 aD)
        else none
    else none
  else
    let t := cross2d (bS - aS) (smulF (Fr.ofInt 1 / c) bD)
    let u := cross2d (bS - aS) (smulF (Fr.ofInt 1 / c) aD)
    if (0 - eps).le t && t.le (1 + eps) && (0 - eps).le u && u.le (1 + eps) then
      some (aS + smulF t aD)
    else none

/-- Rust `fn on_line`.  `line_direction.magnitude() == 0.0` is equivalent to
the squared magnitude being zero; `0.02` is exact. -/
def onLine (point lineStart lineDirection : PtF) : Bool :=
  if (dotF lineDirection lineDirection).beq 0 then point.beq lineStart
  else
    let spl := point - lineStart
    let cr := cross2d spl lineDirection
    let dp := dotF spl lineDirection
    cr.abs.le ⟨2, 100⟩ && Fr.le 0 dp && dp.le (dotF lineDirection lineDirection)

/-- Rust `Edge::intersects`. -/
def EdgeZ.intersects (e other : EdgeZ) : Bool :=
  intersect (toF e.a) (toF e.b - toF e.a) (toF other.a) (toF other.b - toF other.a)

/-- Rust `Edge::order_by_y`. -/
def EdgeZ.orderByY (e : EdgeZ) : EdgeZ :=
  if e.a.y > e.b.y then ⟨e.a, e.b⟩ else ⟨e.b, e.a⟩

/-- Rust `EdgeF32::intersects`. -/
def EdgeF.intersects (e other : EdgeF) : Bool :=
  (intersectForgiving e.a (e.b - e.a) other.a (other.b - other.a)).isSome

/-- Rust `EdgeF32::order_by_y`. -/
def EdgeF.orderByY (e : EdgeF) : EdgeF :=
  if e.b.y.lt e.a.y then ⟨e.a, e.b⟩ else ⟨e.b, e.a⟩

/-! ### Exact arithmetic in `ℚ(√m)` for the ear-search inside test -/

/-- A number `a + b·√m` for an ambient radicand `m`. -/
structure Qr where
  a : Fr
  b : Fr
deriving Repr

/-- Embed a fraction into `ℚ(√m)`. -/
def qOfF (q : Fr) : Qr := ⟨q, 0⟩

/-- Addition in `ℚ(√m)`. -/
def qAdd (x y : Qr) : Qr := ⟨x.a + y.a, x.b + y.b⟩

/-- Subtraction in `ℚ(√m)`. -/
def qSub (x y : Qr) : Qr := ⟨x.a - y.a, x.b - y.b⟩

/-- Negation in `ℚ(√m)`. -/
def qNeg (x : Qr) : Qr := ⟨-x.a, -x.b⟩

/-- Rational scaling in `ℚ(√m)`. -/
def qScale (c : Fr) (x : Qr) : Qr := ⟨c * x.a, c * x.b⟩

/-- Decide `0 ≤ a + b·√m` (for `0 ≤ m`) by exact sign analysis. -/
def qrNonneg (m : Fr) (x : Qr) : Bool :=
  if x.a.isNonneg then
    if x.b.isNonneg then true else (x.b * x.b * m).le (x.a * x.a)
  else
    if x.b.isNonneg then (x.a * x.a).le (x.b * x.b * m) else false

/-- Decide `a + b·√m = 0`. -/
def qrEqZero (m : Fr) (x : Qr) : Bool := qrNonneg m x && qrNonneg m (qNeg x)

/-- Decide `x ≤ y` in `ℚ(√m)`. -/
def qrLe (m : Fr) (x y : Qr) : Bool := qrNonneg m (qSub y x)

/-- Point with `ℚ(√m)` coordinates. -/
structure QrP where
  x : Qr
  y : Qr
deriving Repr

/-- `p - q` for rational `p` and quadratic `q`. -/
def psubN (p : PtF) (q : QrP) : QrP := ⟨qSub (qOfF p.x) q.x, qSub (qOfF p.y) q.y⟩

/-- `p + v` for quadratic `p` and rational `v`. -/
def paddN (p : QrP) (v : PtF) : QrP := ⟨qAdd p.x (qOfF v.x), qAdd p.y (qOfF v.y)⟩

/-- `cross_2d` of a quadratic vector and a rational vector. -/
def crossN (p : QrP) (v : PtF) : Qr := qSub (qScale v.y p.x) (qScale v.x p.y)

/-- Dot product of a quadratic vector and a rational vector. -/
def dotN (p : QrP) (v : PtF) : Qr := qAdd (qScale v.x p.x) (qScale v.y p.y)

/-- Point equality between a quadratic point and a rational point. -/
def peqN (m : Fr) (p : QrP) (q : PtF) : Bool :=
  qrEqZero m (qSub p.x (qOfF q.x)) && qrEqZero m (qSub p.y (qOfF q.y))

/-- Rust `fn intersect` again, for the ear-search calls whose `a_start` is the
nudged point `u + 0.01*(w-u).normalize()` with coordinates in `ℚ(√m)`; all
other arguments of those calls are rational.  Same structure and NaN guard as
`intersect`. -/
def intersectN (m : Fr) (aS : QrP) (aD bS bD : PtF) : Bool :=
  let c := cross2d aD bD
  if c.beq 0 then
    if qrEqZero m (crossN (psubN bS aS) aD) then
      if (dotF aD aD).beq 0 then false
      else
        let t0 := qScale (Fr.ofInt 1 / dotF aD aD) (dotN (psubN bS aS) aD)
        let t1 := qAdd t0 (qOfF (dotF bD aD / dotF aD aD))
        qrLe m t1 (qOfF 1) && qrNonneg m t1 && qrNonneg m t0 && qrLe m t0 (qOfF 1)
    else false
  else
    if (peqN m aS bS || peqN m aS (bS + bD)) ||
        (peqN m (paddN aS aD) bS || peqN m (paddN aS aD) (bS + bD)) then false
    else
      let t := crossN (psubN bS aS) (smulF (Fr.ofInt 1 / c) bD)
      let u := crossN (psubN bS aS) (smulF (Fr.ofInt 1 / c) aD)
      qrNonneg m t && qrLe m t (qOfF 1) && qrNonneg m u && qrLe m u (qOfF 1)

/-- The nudged point `u + 0.01*(w-u).normalize()`, written exactly in `ℚ(√m)`
with `m = |w-u|²`: its `√m`-coefficient is `0.01·(w-u)/m`. -/
def mkInner (u w : PtZ) : QrP :=
  let d := toF w - toF u
  let m := dotF d d
  ⟨⟨Fr.ofInt u.x, ⟨1, 100⟩ * d.x / m⟩, ⟨Fr.ofInt u.y, ⟨1, 100⟩ * d.y / m⟩⟩

/-! ### The point-location structure -/

/-- Rust `enum QueryNode`. -/
inductive QueryNode where
  | X : EdgeF → QueryNode → QueryNode → QueryNode
  | Y : Fr → QueryNode → QueryNode → QueryNode
  | Trap : Nat → QueryNode
deriving Repr

/-- Rust `QueryNode::next`. -/
def QueryNode.next (n : QueryNode) (point : PtZ) : QueryNode :=
  match n with
  | .X e l r =>
    let dir := if e.b.y.lt e.a.y then e.a - e.b else e.b - e.a
    let c := cross2d (toF point - ⟨0, 0⟩) dir
    if c.lt 0 then r.next point else l.next point
  | .Y y above below => if y.le (Fr.ofInt point.y) then above.next point else below.next point
  | .Trap k => .Trap k

/-- Rust `QueryNode::insert_node`. -/
def QueryNode.insertNode (n : QueryNode) (orig : Nat) (node : QueryNode) : QueryNode :=
  match n with
  | .X e l r => .X e (l.insertNode orig node) (r.insertNode orig node)
  | .Y y above below => .Y y (above.insertNode orig node) (below.insertNode orig node)
  | .Trap k => if k = orig then node else .Trap k

/-- Rust `QueryStructure::query` (the structure is just its root node). -/
def queryQS (root : QueryNode) (point : PtZ) : Nat :=
  match root.next point with
  | .Trap k => k
  | _ => 0

/-- Rust `QueryStructure::insert_y_node`. -/
def insertYNode (root : QueryNode) (orig above below : Nat) (y : Fr) : QueryNode :=
  root.insertNode orig (.Y y (.Trap above) (.Trap below))

/-- Rust `QueryStructure::insert_x_node`. -/
def insertXNode (root : QueryNode) (orig left right : Nat) (segment : EdgeF) : QueryNode :=
  root.insertNode orig (.X segment (.Trap left) (.Trap right))

/-! ### Trapezoids -/

/-- Rust `struct Trapezoid`. -/
structure Trapezoid where
  left : EdgeF
  right : EdgeF
deriving Repr

/-- Rust `Trapezoid::split_vertically`. -/
def Trapezoid.splitVertically (t : Trapezoid) (y : Fr) : Trapezoid × Trapezoid :=
  let lt := t.left.orderByY
  let rt := t.right.orderByY
  let diffL := lt.b - lt.a
  let propL := (y - lt.a.y) / diffL.y
  let leftMid := lt.a + smulF propL diffL
  let diffR := rt.b - rt.a
  let propR := (y - rt.a.y) / diffR.y
  let rightMid := rt.a + smulF propR diffR
  (⟨⟨lt.a, leftMid⟩, ⟨rt.a, rightMid⟩⟩, ⟨⟨leftMid, lt.b⟩, ⟨rightMid, rt.b⟩⟩)

/-- Rust `Trapezoid::horizontal_edges`. -/
def Trapezoid.horizontalEdges (t : Trapezoid) : EdgeF × EdgeF :=
  let lt := t.left.orderByY
  let rt := t.right.orderByY
  (⟨lt.a, rt.a⟩, ⟨lt.b, rt.b⟩)

/-- Rust `Trapezoid::vertices` (clockwise starting at top left). -/
def Trapezoid.verticesT (t : Trapezoid) : List PtF :=
  let h := t.horizontalEdges
  [h.1.a, h.1.b, h.2.b, h.2.a]

/-- Rust `Trapezoid::segment_intersects_horizontal_edges`. -/
def Trapezoid.segIntersectsHoriz (t : Trapezoid) (segment : EdgeF) : Bool :=
  let h := t.horizontalEdges
  h.1.intersects segment && h.2.intersects segment

/-- Rust `Trapezoid::split_horizontally`. -/
def Trapezoid.splitHorizontally (t : Trapezoid) (segment : EdgeF) :
    Option (Trapezoid × Trapezoid) :=
  if t.segIntersectsHoriz segment then
    let h := t.horizontalEdges
    let st := segment.orderByY
    let segTop := st.a
    let segBottom := st.b
    let segDiffY := segTop.y - segBottom.y
    let topEdgeY := h.1.a.y
    let bottomEdgeY := h.2.a.y
    let diffYBottom := bottomEdgeY - segBottom.y
    let diffYTop := topEdgeY - segBottom.y
    let segDir := segTop - segBottom
    let segTrunc : EdgeF :=
      ⟨segBottom + smulF (diffYTop / segDiffY) segDir,
       segBottom + smulF (diffYBottom / segDiffY) segDir⟩
    some (⟨t.left, segTrunc⟩, ⟨segTrunc, t.right⟩)
  else none

/-! ### Association-list models of `HashMap` (insertion-ordered) -/

/-- Lookup in an association list (first matching key). -/
def lookupA {κ α : Type} [DecidableEq κ] : List (κ × α) → κ → Option α
  | [], _ => none
  | (k, v) :: rest, key => if k = key then some v else lookupA rest key

/-- `HashMap::insert`: update the first matching key, append when absent. -/
def updA {κ α : Type} [DecidableEq κ] : List (κ × α) → κ → α → List (κ × α)
  | [], key, v => [(key, v)]
  | (k, w) :: rest, key, v =>
    if k = key then (key, v) :: rest else (k, w) :: updA rest key v

/-- `HashMap::remove`. -/
def removeA {κ α : Type} [DecidableEq κ] (l : List (κ × α)) (key : κ) : List (κ × α) :=
  l.filter fun kv => decide (kv.1 ≠ key)

/-! ### The trapezoid build phase of `Map::new` -/

/-- State of the trapezoid-construction loop: the trapezoid table, the next
fresh trapezoid id, the query structure root, and `used_segments`. -/
structure BuildState where
  traps : List (Nat × Trapezoid)
  nextIdx : Nat
  qs : QueryNode
  used : List EdgeZ

/-- The boundary segments of an island, in ring order. -/
def segmentsOf (island : List PtZ) : List EdgeZ :=
  (List.range island.length).map fun i =>
    ⟨island.getD i ⟨0, 0⟩, island.getD ((i + 1) % island.length) ⟨0, 0⟩⟩

/-- One vertical split at endpoint `p`: locate `p`'s trapezoid, split it at
`p.y`, register the two halves and the `Y` query node.  The
`trapezoids.get(..).unwrap()` of the source is the `Option`. -/
def vsplit (st : BuildState) (p : PtZ) : Option BuildState :=
  let k := queryQS st.qs p
  match lookupA st.traps k with
  | none => none
  | some tr =>
    let s := tr.splitVertically (Fr.ofInt p.y)
    let ia := st.nextIdx
    let ib := st.nextIdx + 1
    some { traps := removeA (updA (updA st.traps ia s.1) ib s.2) k,
           nextIdx := st.nextIdx + 2,
           qs := insertYNode st.qs k ia ib (Fr.ofInt p.y),
           used := st.used }

/-- Split at an endpoint unless an already-used segment introduced it. -/
def maybeVsplit (st : BuildState) (p : PtZ) : Option BuildState :=
  if st.used.any fun s => decide (s.a = p) || decide (s.b = p) then some st
  else vsplit st p

/-- One horizontal-split attempt for one trapezoid of the snapshot. -/
def hsplitStep (segQ : EdgeF) (st : BuildState) (kv : Nat × Trapezoid) : BuildState :=
  match kv.2.splitHorizontally segQ with
  | none => st
  | some s =>
    let il := st.nextIdx
    let ir := st.nextIdx + 1
    { traps := removeA (updA (updA st.traps il s.1) ir s.2) kv.1,
      nextIdx := st.nextIdx + 2,
      qs := insertXNode st.qs kv.1 il ir segQ,
      used := st.used }

/-- Process one boundary segment: vertical splits at fresh endpoints, then
horizontal splits over a snapshot (`trapezoids.clone()`) of the table, then
record the segment as used (`push_front`). -/
def stepSegment (st : BuildState) (seg : EdgeZ) : Option BuildState :=
  let ordered := seg.orderByY
  match maybeVsplit st ordered.a with
  | none => none
  | some st1 =>
    match maybeVsplit st1 ordered.b with
    | none => none
    | some st2 =>
      let segQ : EdgeF := ⟨toF seg.a, toF seg.b⟩
      let st3 := st2.traps.foldl (hsplitStep segQ) st2
      some { st3 with used := seg :: st3.used }

/-- The initial single world-spanning trapezoid and query leaf. -/
def initialState : BuildState :=
  { traps := [(0, { left := ⟨⟨-COORDINATE_MAX, COORDINATE_MAX⟩, ⟨-COORDINATE_MAX, -COORDINATE_MAX⟩⟩,
                    right := ⟨⟨COORDINATE_MAX, COORDINATE_MAX⟩, ⟨COORDINATE_MAX, -COORDINATE_MAX⟩⟩ })],
    nextIdx := 1,
    qs := .Trap 0,
    used := [] }

/-- The segment loop (a `foldM` over `Option`, written recursively). -/
def buildLoop (st : BuildState) : List EdgeZ → Option BuildState
  | [] => some st
  | seg :: rest =>
    match stepSegment st seg with
    | none => none
    | some st' => buildLoop st' rest

/-- The whole trapezoid-construction loop. -/
def buildTrapezoids (segments : List EdgeZ) : Option BuildState :=
  buildLoop initialState segments

/-! ### Inside/outside classification and diagonal discovery -/

/-- Whether the horizontal ray from `v` crosses `seg`, with the source's
near-endpoint parity corrections (`distance < 0.001` is compared squared,
which is equivalent in exact arithmetic). -/
def raySegCrossing (v : PtF) (seg : EdgeZ) : Bool :=
  let segStart := toF seg.a
  let segEnd := toF seg.b
  match intersectForgiving v ⟨2 * COORDINATE_MAX, 0⟩ segStart (segEnd - segStart) with
  | some point =>
    if (dist2F point segStart).lt ⟨1, 1000000⟩ then decide (seg.b.y < seg.a.y)
    else if (dist2F point segEnd).lt ⟨1, 1000000⟩ then decide (seg.a.y < seg.b.y)
    else true
  | none => false

/-- The per-vertex inside test of the trapezoid classification filter. -/
def vertexInPolygon (segments : List EdgeZ) (v : PtF) : Bool :=
  let crossings := (segments.filter (raySegCrossing v)).length
  (segments.any fun seg => onLine v (toF seg.a) (toF seg.b - toF seg.a))
    || decide (crossings % 2 = 1)

/-- Rust: `trapezoids_in_polygon` (values of the table, insertion order). -/
def trapsInPolygon (traps : List (Nat × Trapezoid)) (segments : List EdgeZ) : List Trapezoid :=
  (traps.map Prod.snd).filter fun tr => tr.verticesT.all (vertexInPolygon segments)

/-- The four cyclic edges of a trapezoid's vertex list. -/
def trapezoidEdgesOf (tr : Trapezoid) : List EdgeF :=
  let vs := tr.verticesT
  (List.range vs.length).map fun i =>
    ⟨vs.getD i ⟨0, 0⟩, vs.getD ((i + 1) % vs.length) ⟨0, 0⟩⟩

/-- Candidate diagonal discovered from one inside trapezoid. -/
def diagonalOf (island : List PtZ) (tr : Trapezoid) : Option EdgeZ :=
  let tes := trapezoidEdgesOf tr
  let pvs := (island.map fun v =>
      ((toF v), tes.filter fun e => onLine (toF v) e.a (e.b - e.a))).filter
      fun ve => decide (ve.2.length > 0)
  if pvs.length = 2 then
    let first := pvs.getD 0 (⟨0, 0⟩, [])
    let second := pvs.getD 1 (⟨0, 0⟩, [])
    if (first.2.filter fun e => second.2.any fun oe => e.beq oe).length = 0 then
      some ⟨toZ first.1, toZ second.1⟩
    else none
  else none

/-! ### Monotone splitting -/

/-- The bounded vertex walk of the diagonal split (`for i in 0..len` with a
break once the diagonal's end vertex is pushed). -/
def walkPoly (polygon : List PtZ) (f : Nat → Nat) (endV : PtZ) : Nat → Nat → List PtZ
  | 0, _ => []
  | fuel + 1, i =>
    let v := polygon.getD (f i % polygon.length) ⟨0, 0⟩
    if v = endV then [v] else v :: walkPoly polygon f endV fuel (i + 1)

/-- Split one polygon along one diagonal when both endpoints are present. -/
def splitByDiagonal (diag : EdgeZ) (polygon : List PtZ) : List (List PtZ) :=
  if (polygon.any fun v => decide (v = diag.a)) && (polygon.any fun v => decide (v = diag.b)) then
    let dsi := polygon.indexOf diag.a
    [walkPoly polygon (fun i => dsi + i) diag.b polygon.length 0,
     walkPoly polygon (fun i => dsi + polygon.length - i) diag.b polygon.length 0]
  else [polygon]

/-- Fold the discovered diagonals over the polygon list. -/
def monotonePolygons (island : List PtZ) (diagonals : List EdgeZ) : List (List PtZ) :=
  diagonals.foldl (fun polys d => (polys.map (splitByDiagonal d)).flatten) [island]

/-! ### Triangulation of each monotone polygon -/

/-- The clockwise test `Σ (next.x - p.x) * (next.y + p.y)` (integer). -/
def shoelace (l : List PtZ) : ℤ :=
  ((List.range l.length).map fun i =>
    let p := l.getD i ⟨0, 0⟩
    let nxt := l.getD ((i + 1) % l.length) ⟨0, 0⟩
    (nxt.x - p.x) * (nxt.y + p.y)).sum

/-- Reverse a 3-vertex ring when the clockwise test fires (both emission paths
of the source reverse `[t0,t1,t2]` to `[t2,t1,t0]`). -/
def fixW3 (t : List PtZ) : List PtZ := if 0 ≤ shoelace t then t.reverse else t

/-- HashSet-style set equality of two vertex lists (the duplicate-triangle
test compares `HashSet`s, so multiplicity is ignored). -/
def sameVertexSet (s t : List PtZ) : Bool :=
  (s.all fun v => t.any fun w => decide (w = v)) &&
    (t.all fun v => s.any fun w => decide (w = v))

/-- Accumulator of the ear-search fold: emitted triangles and the internal
diagonals added so far. -/
structure EarState where
  triangles : List (List PtZ)
  newEdges : List EdgeZ

/-- The candidate test for one ordered pair `(u, w)` of neighbours of `point`
(the body of the innermost closure of `Map::new`). -/
def candidateEar (polygonSegments : List EdgeZ) (st : EarState) (point u w : PtZ) :
    Option (List PtZ × EdgeZ) :=
  if w = u then none
  else
    let newEdge : EdgeZ := ⟨u, w⟩
    let intersectsInner := (st.newEdges.filter fun oe =>
        decide ((newEdge.a ≠ oe.a ∧ newEdge.b ≠ oe.b) ∧
                (newEdge.a ≠ oe.b ∧ newEdge.b ≠ oe.a))).any fun oe =>
        newEdge.intersects oe
    let intersectsOuter := polygonSegments.any fun seg => seg.intersects newEdge
    let d := toF w - toF u
    let m := dotF d d
    let innerU := mkInner u w
    let innerW := mkInner w u
    let innerUWithin := decide ((polygonSegments.filter fun seg =>
        intersectN m innerU ⟨COORDINATE_MAX, 0⟩ (toF seg.a) (toF seg.b - toF seg.a)).length % 2 = 1)
    let innerWWithin := decide ((polygonSegments.filter fun seg =>
        intersectN m innerW ⟨COORDINATE_MAX, 0⟩ (toF seg.a) (toF seg.b - toF seg.a)).length % 2 = 1)
    let triangle := [u, point, w]
    let dup := st.triangles.any fun t => sameVertexSet t triangle
    if !intersectsOuter && !intersectsInner && (innerUWithin && innerWWithin) && !dup then
      some (triangle, newEdge)
    else none

/-- The neighbour list of one vertex during the ear search. -/
def neighboursEar (polygon : List PtZ) (newEdges : List EdgeZ) (i : Nat) (point : PtZ) :
    List PtZ :=
  [polygon.getD ((i + polygon.length - 1) % polygon.length) ⟨0, 0⟩,
   polygon.getD ((i + 1) % polygon.length) ⟨0, 0⟩] ++
    newEdges.filterMap fun e =>
      if e.a = point then some e.b else if e.b = point then some e.a else none

/-- One step of the ear-search fold (one vertex of the polygon). -/
def earStep (polygonSegments : List EdgeZ) (polygon : List PtZ) (st : EarState)
    (ip : Nat × PtZ) : EarState :=
  let nbs := neighboursEar polygon st.newEdges ip.1 ip.2
  match nbs.findSome? fun u => nbs.findSome? fun w => candidateEar polygonSegments st ip.2 u w with
  | some found =>
    { triangles := st.triangles ++ [fixW3 found.1], newEdges := st.newEdges ++ [found.2] }
  | none => st

/-- Triangles (as 3-vertex lists) emitted for one monotone polygon. -/
def trianglesOfPolygon (island polygon : List PtZ) : List (List PtZ) :=
  if polygon.length = 3 then [fixW3 polygon]
  else (polygon.enum.foldl (earStep (segmentsOf island) polygon) ⟨[], []⟩).triangles

/-- The flat triangle list of one triangulated island (`Map::new`'s per-island
closure); `none` is a panic in the trapezoid build phase. -/
def triangulateIsland (island : List PtZ) : Option (List PtZ) :=
  let segments := segmentsOf island
  match buildTrapezoids segments with
  | none => none
  | some st =>
    let inPoly := trapsInPolygon st.traps segments
    let diagonals := inPoly.filterMap (diagonalOf island)
    let polys := monotonePolygons island diagonals
    some (polys.map fun p => ((trianglesOfPolygon island p).flatten)).flatten

/-- Rust `struct Map` (the triangulated islands). -/
structure Map where
  islands : List (List PtZ)
deriving DecidableEq, Repr

/-- The island map of `Map::new` (a traversal in `Option`: any island whose
build panics aborts the whole construction). -/
def mapIslands : List (List PtZ) → Option (List (List PtZ))
  | [] => some []
  | isl :: rest =>
    match triangulateIsland isl, mapIslands rest with
    | some t, some ts => some (t :: ts)
    | _, _ => none

/-- Rust `Map::new`. -/
def mapNew (islands : List (List PtZ)) : Option Map :=
  (mapIslands islands).map Map.mk

/-! ### Signed area and triangle chunks -/

/-- Twice the standard signed area of a vertex ring (positive = CCW). -/
def signedArea2 (l : List PtZ) : ℤ :=
  ((List.range l.length).map fun i =>
    let p := l.getD i ⟨0, 0⟩
    let nxt := l.getD ((i + 1) % l.length) ⟨0, 0⟩
    p.x * nxt.y - nxt.x * p.y).sum

/-- Rust `slice::chunks(3)` (a trailing partial chunk is kept, as in Rust). -/
def chunks3 {α : Type} : List α → List (List α)
  | a :: b :: c :: rest => [a, b, c] :: chunks3 rest
  | [] => []
  | l => [l]

lemma shoelace3 (a b c : PtZ) : shoelace [a, b, c] = -signedArea2 [a, b, c] := by
  simp [shoelace, signedArea2, show List.range 3 = [0, 1, 2] from rfl]
  ring

lemma signedArea2_rev3 (a b c : PtZ) : signedArea2 [c, b, a] = -signedArea2 [a, b, c] := by
  simp [signedArea2, show List.range 3 = [0, 1, 2] from rfl]
  ring

lemma fixW3_nonneg (a b c : PtZ) : 0 ≤ signedArea2 (fixW3 [a, b, c]) := by
  have hs := shoelace3 a b c
  unfold fixW3
  by_cases h : 0 ≤ shoelace [a, b, c]
  · rw [if_pos h]
    show 0 ≤ signedArea2 [c, b, a]
    rw [signedArea2_rev3]
    omega
  · rw [if_neg h]
    omega

lemma fixW3_length3 (a b c : PtZ) : (fixW3 [a, b, c]).length = 3 := by
  unfold fixW3
  by_cases h : 0 ≤ shoelace [a, b, c] <;> simp [h]

lemma length_eq_three {α : Type} (l : List α) (h : l.length = 3) :
    ∃ a b c, l = [a, b, c] := by
  rcases l with _ | ⟨a, _ | ⟨b, _ | ⟨c, _ | ⟨d, l⟩⟩⟩⟩ <;> simp_all

lemma chunks3_flatten (L : List (List PtZ)) (hL : ∀ t ∈ L, t.length = 3) :
    chunks3 L.flatten = L := by
  induction L with
  | nil => rfl
  | cons t rest ih =>
    obtain ⟨a, b, c, rfl⟩ := length_eq_three t (hL t (List.mem_cons_self _ _))
    have : ([a, b, c] :: rest).flatten = a :: b :: c :: rest.flatten := by simp
    rw [this]
    show [a, b, c] :: chunks3 rest.flatten = _
    rw [ih fun u hu => hL u (List.mem_cons_of_mem _ hu)]

/-! ### Every triangle emitted by the triangulator is winding-fixed -/

lemma candidateEar_cases (segs : List EdgeZ) (st : EarState) (point u w : PtZ) :
    candidateEar segs st point u w = none ∨
      candidateEar segs st point u w = some ([u, point, w], ⟨u, w⟩) := by
  unfold candidateEar
  split
  · left; rfl
  · dsimp only
    split
    · right; rfl
    · left; rfl

lemma exists_of_findSomeQ {α β : Type} (f : α → Option β) (l : List α) (b : β)
    (h : l.findSome? f = some b) : ∃ a ∈ l, f a = some b := by
  induction l with
  | nil => cases h
  | cons x xs ih =>
    rw [List.findSome?_cons] at h
    cases hx : f x with
    | some y =>
      rw [hx] at h
      cases h
      exact ⟨x, List.mem_cons_self _ _, hx⟩
    | none =>
      rw [hx] at h
      obtain ⟨a, ha, hf⟩ := ih h
      exact ⟨a, List.mem_cons_of_mem _ ha, hf⟩

lemma earStep_triangles (segs : List EdgeZ) (polygon : List PtZ) (st : EarState)
    (ip : Nat × PtZ) (t : List PtZ) (ht : t ∈ (earStep segs polygon st ip).triangles) :
    t ∈ st.triangles ∨ ∃ a b c, t = fixW3 [a, b, c] := by
  unfold earStep at ht
  dsimp only at ht
  cases hfs : (neighboursEar polygon st.newEdges ip.1 ip.2).findSome? fun u =>
      (neighboursEar polygon st.newEdges ip.1 ip.2).findSome? fun w =>
        candidateEar segs st ip.2 u w with
  | none => rw [hfs] at ht; exact Or.inl ht
  | some found =>
    rw [hfs] at ht
    simp only [List.mem_append, List.mem_singleton] at ht
    rcases ht with h | h
    · exact Or.inl h
    · right
      obtain ⟨u, -, hu⟩ := exists_of_findSomeQ _ _ _ hfs
      obtain ⟨w, -, hw⟩ := exists_of_findSomeQ _ _ _ hu
      rcases candidateEar_cases segs st ip.2 u w with hc | hc
      · rw [hc] at hw; cases hw
      · rw [hc] at hw
        cases hw
        exact ⟨u, ip.2, w, h⟩

lemma earFold_triangles (segs : List EdgeZ) (polygon : List PtZ) :
    ∀ (l : List (Nat × PtZ)) (st : EarState),
      (∀ t ∈ st.triangles, ∃ a b c, t = fixW3 [a, b, c]) →
      ∀ t ∈ (l.foldl (earStep segs polygon) st).triangles, ∃ a b c, t = fixW3 [a, b, c] := by
  intro l
  induction l with
  | nil => intro st hst t ht; exact hst t ht
  | cons ip rest ih =>
    intro st hst t ht
    refine ih (earStep segs polygon st ip) ?_ t ht
    intro u hu
    rcases earStep_triangles segs polygon st ip u hu with h | h
    · exact hst u h
    · exact h

lemma trianglesOfPolygon_shape (island polygon t : List PtZ)
    (ht : t ∈ trianglesOfPolygon island polygon) : ∃ a b c, t = fixW3 [a, b, c] := by
  unfold trianglesOfPolygon at ht
  by_cases h : polygon.length = 3
  · rw [if_pos h] at ht
    obtain ⟨a, b, c, rfl⟩ := length_eq_three polygon h
    simp only [List.mem_singleton] at ht
    exact ⟨a, b, c, ht⟩
  · rw [if_neg h] at ht
    exact earFold_triangles _ _ _ _ (by intro u hu; cases hu) t ht

lemma triangulateIsland_chunks (island flat : List PtZ)
    (h : triangulateIsland island = some flat) (t : List PtZ) (ht : t ∈ chunks3 flat) :
    ∃ a b c, t = fixW3 [a, b, c] := by
  unfold triangulateIsland at h
  dsimp only at h
  cases hb : buildTrapezoids (segmentsOf island) with
  | none => rw [hb] at h; cases h
  | some st =>
    rw [hb] at h
    cases h
    set polys := monotonePolygons island
      ((trapsInPolygon st.traps (segmentsOf island)).filterMap (diagonalOf island)) with hpolys
    have hflat : ∀ polys' : List (List PtZ),
        (polys'.map fun p => (trianglesOfPolygon island p).flatten).flatten
          = ((polys'.map (trianglesOfPolygon island)).flatten).flatten := by
      intro polys'
      induction polys' with
      | nil => rfl
      | cons p ps ih => simp [ih]
    rw [hflat polys] at ht
    have hall : ∀ u ∈ (polys.map (trianglesOfPolygon island)).flatten, u.length = 3 := by
      intro u hu
      simp only [List.mem_flatten, List.mem_map] at hu
      obtain ⟨ts, ⟨p, -, rfl⟩, hu⟩ := hu
      obtain ⟨a, b, c, rfl⟩ := trianglesOfPolygon_shape island p u hu
      exact fixW3_length3 a b c
    rw [chunks3_flatten _ hall] at ht
    simp only [List.mem_flatten, List.mem_map] at ht
    obtain ⟨ts, ⟨p, -, rfl⟩, ht⟩ := ht
    exact trianglesOfPolygon_shape island p t ht

lemma mapIslands_mem (islands out : List (List PtZ)) (h : mapIslands islands = some out)
    (isl : List PtZ) (hi : isl ∈ out) :
    ∃ island ∈ islands, triangulateIsland island = some isl := by
  induction islands generalizing out with
  | nil => cases h; cases hi
  | cons x rest ih =>
    unfold mapIslands at h
    cases hx : triangulateIsland x with
    | none => rw [hx] at h; cases h
    | some tx =>
      rw [hx] at h
      cases hrest : mapIslands rest with
      | none => rw [hrest] at h; cases h
      | some ts =>
        rw [hrest] at h
        cases h
        rcases List.mem_cons.mp hi with hie | hie
        · subst hie
          exact ⟨x, List.mem_cons_self _ _, hx⟩
        · obtain ⟨island, hm, he⟩ := ih ts hrest hie
          exact ⟨island, List.mem_cons_of_mem _ hm, he⟩

/-- C3 (amended): every triangle `Map::new` emits (on any input, through both
the 3-vertex path and the ear-search path) has nonnegative signed area, i.e.
it is counter-clockwise or degenerate; nonzero area is not guaranteed. -/
theorem mapNew_triangles_ccw (islands : List (List PtZ)) (m : Map)
    (hm : mapNew islands = some m) (isl : List PtZ) (hisl : isl ∈ m.islands)
    (t : List PtZ) (ht : t ∈ chunks3 isl) : 0 ≤ signedArea2 t := by
  unfold mapNew at hm
  cases hmi : mapIslands islands with
  | none => rw [hmi] at hm; cases hm
  | some out =>
    rw [hmi] at hm
    cases hm
    obtain ⟨island, -, he⟩ := mapIslands_mem islands out hmi isl hisl
    obtain ⟨a, b, c, rfl⟩ := triangulateIsland_chunks island isl he t ht
    exact fixW3_nonneg a b c

/-- C3 witness: the amended theorem applied to a concrete build. -/
theorem mapNew_triangles_ccw_witness : 0 ≤ signedArea2 [⟨2, 8⟩, ⟨1, 4⟩, ⟨0, 0⟩] :=
  mapNew_triangles_ccw [[⟨0, 0⟩, ⟨1, 4⟩, ⟨2, 8⟩]] ⟨[[⟨2, 8⟩, ⟨1, 4⟩, ⟨0, 0⟩]]⟩
    (by decide) [⟨2, 8⟩, ⟨1, 4⟩, ⟨0, 0⟩] (by decide) [⟨2, 8⟩, ⟨1, 4⟩, ⟨0, 0⟩] (by decide)

/-- C3 counterexample: on the degenerate (collinear) ring
`[(0,0),(1,4),(2,8)]`, `Map::new` emits the triangle `[(2,8),(1,4),(0,0)]`
whose signed area is zero, refuting "nonzero signed area" as stated. -/
theorem mapNew_emits_degenerate_triangle :
    (mapNew [[⟨0, 0⟩, ⟨1, 4⟩, ⟨2, 8⟩]]).map (fun m => m.islands.map chunks3) =
      some [[[⟨2, 8⟩, ⟨1, 4⟩, ⟨0, 0⟩]]] ∧
    signedArea2 [⟨2, 8⟩, ⟨1, 4⟩, ⟨0, 0⟩] = 0 := by
  constructor
  · decide
  · decide

/-! ### C2: the N-2 triangle count fails on a simple polygon -/

/-- A simple (non-self-intersecting), counter-clockwise, U-shaped 8-gon with
pairwise-distinct vertex `y` coordinates and no horizontal edge. -/
def uPolygon : List PtZ :=
  [⟨0, 0⟩, ⟨12, 1⟩, ⟨13, 9⟩, ⟨9, 8⟩, ⟨8, 3⟩, ⟨4, 2⟩, ⟨3, 7⟩, ⟨-1, 6⟩]

/-- C2: `Map::new` triangulates the simple 8-vertex polygon `uPolygon` into
only 4 triangles (a flat list of 12 points) instead of the claimed
`N - 2 = 6` (18 points). -/
theorem mapNew_uPolygon_count :
    (mapNew [uPolygon]).map (fun m => m.islands.map List.length) = some [12] ∧
    uPolygon.length = 8 ∧ (12 : ℕ) ≠ 3 * (8 - 2) := by
  refine ⟨by decide, by decide, by decide⟩

/-! ### C4: `Map::new` runs to completion on every input

The only fallible operations of the pipeline are the two
`trapezoids.get(&index).unwrap()` calls of the vertical split; they succeed
because every leaf of the query structure always names a live trapezoid. -/

/-- The leaf trapezoid ids of a query tree. -/
def leavesQ : QueryNode → List Nat
  | .X _ l r => leavesQ l ++ leavesQ r
  | .Y _ a b => leavesQ a ++ leavesQ b
  | .Trap k => [k]

lemma next_leaf (n : QueryNode) (p : PtZ) : ∃ k, n.next p = .Trap k ∧ k ∈ leavesQ n := by
  induction n with
  | X e l r ihl ihr =>
    obtain ⟨kr, hkr, hmr⟩ := ihr
    obtain ⟨kl, hkl, hml⟩ := ihl
    unfold QueryNode.next
    dsimp only
    split <;> split <;>
      first
        | exact ⟨kr, hkr, by simp [leavesQ, hmr]⟩
        | exact ⟨kl, hkl, by simp [leavesQ, hml]⟩
  | Y y a b iha ihb =>
    obtain ⟨ka, hka, hma⟩ := iha
    obtain ⟨kb, hkb, hmb⟩ := ihb
    unfold QueryNode.next
    split
    · exact ⟨ka, hka, by simp [leavesQ, hma]⟩
    · exact ⟨kb, hkb, by simp [leavesQ, hmb]⟩
  | Trap k => exact ⟨k, rfl, by simp [leavesQ]⟩

lemma queryQS_mem (root : QueryNode) (p : PtZ) : queryQS root p ∈ leavesQ root := by
  obtain ⟨k, hk, hm⟩ := next_leaf root p
  unfold queryQS
  rw [hk]
  exact hm

lemma insertNode_leaves (n : QueryNode) (orig : Nat) (node : QueryNode) (x : Nat)
    (hx : x ∈ leavesQ (n.insertNode orig node)) :
    (x ∈ leavesQ n ∧ x ≠ orig) ∨ x ∈ leavesQ node := by
  induction n with
  | X e l r ihl ihr =>
    unfold QueryNode.insertNode at hx
    simp only [leavesQ, List.mem_append] at hx ⊢
    rcases hx with hx | hx
    · rcases ihl hx with ⟨h1, h2⟩ | h
      · exact Or.inl ⟨Or.inl h1, h2⟩
      · exact Or.inr h
    · rcases ihr hx with ⟨h1, h2⟩ | h
      · exact Or.inl ⟨Or.inr h1, h2⟩
      · exact Or.inr h
  | Y y a b iha ihb =>
    unfold QueryNode.insertNode at hx
    simp only [leavesQ, List.mem_append] at hx ⊢
    rcases hx with hx | hx
    · rcases iha hx with ⟨h1, h2⟩ | h
      · exact Or.inl ⟨Or.inl h1, h2⟩
      · exact Or.inr h
    · rcases ihb hx with ⟨h1, h2⟩ | h
      · exact Or.inl ⟨Or.inr h1, h2⟩
      · exact Or.inr h
  | Trap k =>
    unfold QueryNode.insertNode at hx
    by_cases hk : k = orig
    · rw [if_pos hk] at hx
      exact Or.inr hx
    · rw [if_neg hk] at hx
      simp only [leavesQ, List.mem_singleton] at hx
      subst hx
      exact Or.inl ⟨by simp [leavesQ], hk⟩

lemma lookupA_isSome {κ α : Type} [DecidableEq κ] (l : List (κ × α)) (k : κ)
    (h : k ∈ l.map Prod.fst) : (lookupA l k).isSome := by
  induction l with
  | nil => cases h
  | cons kv rest ih =>
    unfold lookupA
    by_cases hk : kv.1 = k
    · simp [hk]
    · rw [if_neg hk]
      rcases List.mem_cons.mp h with he | he
      · exact absurd he.symm hk
      · exact ih he

lemma keys_updA {κ α : Type} [DecidableEq κ] (l : List (κ × α)) (k : κ) (v : α) (x : κ) :
    x ∈ (updA l k v).map Prod.fst ↔ x ∈ l.map Prod.fst ∨ x = k := by
  induction l with
  | nil => simp [updA]
  | cons kv rest ih =>
    unfold updA
    by_cases hk : kv.1 = k
    · rw [if_pos hk]
      subst hk
      simp
      tauto
    · rw [if_neg hk]
      simp [ih]
      tauto

lemma keys_removeA {κ α : Type} [DecidableEq κ] (l : List (κ × α)) (k : κ) (x : κ) :
    x ∈ (removeA l k).map Prod.fst ↔ x ∈ l.map Prod.fst ∧ x ≠ k := by
  induction l with
  | nil => simp [removeA]
  | cons kv rest ih =>
    unfold removeA at ih ⊢
    by_cases hk : kv.1 = k
    · simp [List.filter_cons, hk, ih]
      tauto
    · simp [List.filter_cons, hk, ih]
      constructor
      · rintro (h | h)
        · exact ⟨Or.inl h, h ▸ hk⟩
        · exact ⟨Or.inr h.1, h.2⟩
      · rintro ⟨h | h, hx⟩
        · exact Or.inl h
        · exact Or.inr ⟨h, hx⟩

/-- The loop invariant: every query leaf names a live trapezoid, and all
trapezoid ids are below the fresh counter. -/
def InvB (st : BuildState) : Prop :=
  (∀ x ∈ leavesQ st.qs, x ∈ st.traps.map Prod.fst) ∧
    ∀ x ∈ st.traps.map Prod.fst, x < st.nextIdx

lemma inv_split (traps : List (Nat × Trapezoid)) (nidx : Nat) (qs : QueryNode)
    (k : Nat) (t1 t2 : Trapezoid) (node : QueryNode)
    (hinv1 : ∀ x ∈ leavesQ qs, x ∈ traps.map Prod.fst)
    (hinv2 : ∀ x ∈ traps.map Prod.fst, x < nidx)
    (hnode : ∀ x ∈ leavesQ node, x = nidx ∨ x = nidx + 1)
    (hk : k < nidx) :
    (∀ x ∈ leavesQ (qs.insertNode k node),
        x ∈ (removeA (updA (updA traps nidx t1) (nidx + 1) t2) k).map Prod.fst) ∧
      ∀ x ∈ (removeA (updA (updA traps nidx t1) (nidx + 1) t2) k).map Prod.fst,
        x < nidx + 2 := by
  constructor
  · intro x hx
    rw [keys_removeA, keys_updA, keys_updA]
    rcases insertNode_leaves qs k node x hx with ⟨h1, h2⟩ | h
    · exact ⟨Or.inl (Or.inl (hinv1 x h1)), h2⟩
    · rcases hnode x h with rfl | rfl
      · exact ⟨Or.inl (Or.inr rfl), by omega⟩
      · exact ⟨Or.inr rfl, by omega⟩
  · intro x hx
    rw [keys_removeA, keys_updA, keys_updA] at hx
    rcases hx.1 with (h | rfl) | rfl
    · have := hinv2 x h
      omega
    · omega
    · omega

lemma leaves_ynode (ia ib : Nat) (y : Fr) (x : Nat)
    (hx : x ∈ leavesQ (.Y y (.Trap ia) (.Trap ib))) : x = ia ∨ x = ib := by
  simp only [leavesQ, List.mem_append, List.mem_singleton] at hx
  exact hx

lemma leaves_xnode (ia ib : Nat) (e : EdgeF) (x : Nat)
    (hx : x ∈ leavesQ (.X e (.Trap ia) (.Trap ib))) : x = ia ∨ x = ib := by
  simp only [leavesQ, List.mem_append, List.mem_singleton] at hx
  exact hx

lemma vsplit_some (st : BuildState) (p : PtZ) (hinv : InvB st) :
    ∃ st', vsplit st p = some st' ∧ InvB st' ∧ st.nextIdx ≤ st'.nextIdx := by
  have hq := queryQS_mem st.qs p
  have hkmem : queryQS st.qs p ∈ st.traps.map Prod.fst := hinv.1 _ hq
  have hklt : queryQS st.qs p < st.nextIdx := hinv.2 _ hkmem
  have hl := lookupA_isSome st.traps _ hkmem
  unfold vsplit
  dsimp only
  cases hlk : lookupA st.traps (queryQS st.qs p) with
  | none => rw [hlk] at hl; cases hl
  | some tr =>
    dsimp only
    refine ⟨_, rfl, ?_, Nat.le_add_right _ 2⟩
    have := inv_split st.traps st.nextIdx st.qs (queryQS st.qs p)
      (tr.splitVertically (Fr.ofInt p.y)).1 (tr.splitVertically (Fr.ofInt p.y)).2
      (.Y (Fr.ofInt p.y) (.Trap st.nextIdx) (.Trap (st.nextIdx + 1)))
      hinv.1 hinv.2 (leaves_ynode _ _ _) hklt
    exact ⟨this.1, this.2⟩

lemma maybeVsplit_some (st : BuildState) (p : PtZ) (hinv : InvB st) :
    ∃ st', maybeVsplit st p = some st' ∧ InvB st' ∧ st.nextIdx ≤ st'.nextIdx := by
  unfold maybeVsplit
  split
  · exact ⟨st, rfl, hinv, le_refl _⟩
  · exact vsplit_some st p hinv

lemma hsplitStep_inv (segQ : EdgeF) (st : BuildState) (kv : Nat × Trapezoid)
    (hinv : InvB st) (hkv : kv.1 < st.nextIdx) :
    InvB (hsplitStep segQ st kv) ∧ st.nextIdx ≤ (hsplitStep segQ st kv).nextIdx := by
  unfold hsplitStep
  cases hs : kv.2.splitHorizontally segQ with
  | none => exact ⟨hinv, le_refl _⟩
  | some s =>
    have := inv_split st.traps st.nextIdx st.qs kv.1 s.1 s.2
      (.X segQ (.Trap st.nextIdx) (.Trap (st.nextIdx + 1)))
      hinv.1 hinv.2 (leaves_xnode _ _ _) hkv
    exact ⟨⟨this.1, this.2⟩, Nat.le_add_right _ 2⟩

lemma hsplitFold_inv (segQ : EdgeF) :
    ∀ (snap : List (Nat × Trapezoid)) (st : BuildState),
      InvB st → (∀ kv ∈ snap, kv.1 < st.nextIdx) →
      InvB (snap.foldl (hsplitStep segQ) st) ∧
        st.nextIdx ≤ (snap.foldl (hsplitStep segQ) st).nextIdx := by
  intro snap
  induction snap with
  | nil => intro st hinv _; exact ⟨hinv, le_refl _⟩
  | cons kv rest ih =>
    intro st hinv hb
    have h1 := hsplitStep_inv segQ st kv hinv (hb kv (List.mem_cons_self _ _))
    have h2 := ih (hsplitStep segQ st kv) h1.1 fun kw hkw =>
      lt_of_lt_of_le (hb kw (List.mem_cons_of_mem _ hkw)) h1.2
    exact ⟨h2.1, le_trans h1.2 h2.2⟩

lemma stepSegment_some (st : BuildState) (seg : EdgeZ) (hinv : InvB st) :
    ∃ st', stepSegment st seg = some st' ∧ InvB st' := by
  unfold stepSegment
  dsimp only
  obtain ⟨st1, h1, hinv1, -⟩ := maybeVsplit_some st seg.orderByY.a hinv
  rw [h1]
  dsimp only
  obtain ⟨st2, h2, hinv2, -⟩ := maybeVsplit_some st1 seg.orderByY.b hinv1
  rw [h2]
  dsimp only
  have hf := hsplitFold_inv ⟨toF seg.a, toF seg.b⟩ st2.traps st2 hinv2
    fun kv hkv => hinv2.2 kv.1 (List.mem_map_of_mem Prod.fst hkv)
  exact ⟨_, rfl, hf.1⟩

lemma buildLoop_some : ∀ (segs : List EdgeZ) (st : BuildState), InvB st →
    ∃ st', buildLoop st segs = some st' := by
  intro segs
  induction segs with
  | nil => intro st _; exact ⟨st, rfl⟩
  | cons seg rest ih =>
    intro st hinv
    obtain ⟨st', hst, hinv'⟩ := stepSegment_some st seg hinv
    unfold buildLoop
    rw [hst]
    exact ih st' hinv'

lemma initialState_inv : InvB initialState := by
  constructor
  · intro x hx
    simp only [initialState, leavesQ, List.mem_singleton] at hx
    simp [initialState, hx]
  · intro x hx
    simp only [initialState, List.map_cons, List.map_nil, List.mem_singleton] at hx
    simp [initialState, hx]

lemma triangulateIsland_some (island : List PtZ) : (triangulateIsland island).isSome := by
  unfold triangulateIsland buildTrapezoids
  obtain ⟨st', hst⟩ := buildLoop_some (segmentsOf island) initialState initialState_inv
  dsimp only
  rw [hst]
  rfl

/-- C4: `Map::new` runs to completion and returns a `Map` on every input whose
rings are all non-empty (in fact on every input: no unwrap, indexing or
division of the pipeline can panic). -/
theorem mapNew_total (islands : List (List PtZ)) (_hne : ∀ isl ∈ islands, isl ≠ []) :
    (mapNew islands).isSome = true := by
  clear _hne
  unfold mapNew
  suffices h : (mapIslands islands).isSome = true by
    cases hm : mapIslands islands with
    | none => rw [hm] at h; cases h
    | some out => rfl
  induction islands with
  | nil => rfl
  | cons isl rest ih =>
    unfold mapIslands
    have h1 := triangulateIsland_some isl
    cases h2 : triangulateIsland isl with
    | none => rw [h2] at h1; cases h1
    | some t =>
      cases h3 : mapIslands rest with
      | none => rw [h3] at ih; cases ih
      | some ts => rfl

/-- C4 witness: the theorem applied to a concrete non-empty-ring input. -/
theorem mapNew_total_witness : (mapNew [[⟨0, 0⟩, ⟨1, 4⟩, ⟨2, 8⟩]]).isSome = true :=
  mapNew_total [[⟨0, 0⟩, ⟨1, 4⟩, ⟨2, 8⟩]] (by decide)

/-! ### The real-valued layer: points with `f32` coordinates idealised as `ℝ` -/

/-- Real point, modelling `Point2<f32>` / `Vector2<f32>` in `graph.rs` and the
query API of `map.rs`. -/
structure PtR where
  x : ℝ
  y : ℝ

noncomputable instance : Add PtR := ⟨fun p q => ⟨p.x + q.x, p.y + q.y⟩⟩
noncomputable instance : Sub PtR := ⟨fun p q => ⟨p.x - q.x, p.y - q.y⟩⟩

/-- Scalar multiplication on `PtR`. -/
noncomputable def smulR (c : ℝ) (p : PtR) : PtR := ⟨c * p.x, c * p.y⟩

/-- `cross_2d` on real vectors. -/
noncomputable def cross2dR (v w : PtR) : ℝ := v.x * w.y - v.y * w.x

/-- Dot product on real vectors. -/
noncomputable def dotR (v w : PtR) : ℝ := v.x * w.x + v.y * w.y

/-- `alga` euclidean `distance`. -/
noncomputable def distR (p q : PtR) : ℝ :=
  Real.sqrt ((p.x - q.x) ^ 2 + (p.y - q.y) ^ 2)

/-- `Vector2::normalize` (`v / |v|`; for `v = 0` Rust yields NaN vectors, the
embedding yields `0` by the `1/0 = 0` convention — no claim depends on it). -/
noncomputable def normalizeR (v : PtR) : PtR := smulR (1 / Real.sqrt (dotR v v)) v

/-- `to_f32` into the real layer. -/
noncomputable def toR (p : PtZ) : PtR := ⟨(p.x : ℝ), (p.y : ℝ)⟩

/-! ### `graph.rs`: the graph and `a_star` -/

/-- Rust `struct Graph` (`Edge(usize, usize)` as index pairs). -/
structure GraphR where
  nodes : List PtR
  edges : List (Nat × Nat)

/-- Rust `Graph::neighbours` (a `HashSet`, modelled as the deduplicated
collection order of the edge scan). -/
def neighboursG (g : GraphR) (node : Nat) : List Nat :=
  (g.edges.filterMap fun e =>
    if e.1 = node then some e.2 else if e.2 = node then some e.1 else none).dedup

/-- Rust `Graph::cost` (`self.nodes[current].distance(&self.nodes[next])`;
out-of-range indices would panic in Rust and are never reached here). -/
noncomputable def costG (g : GraphR) (current next : Nat) : ℝ :=
  distR (g.nodes.getD current ⟨0, 0⟩) (g.nodes.getD next ⟨0, 0⟩)

/-- The `f32` → `i32` cast (`as i32`): truncation toward zero. -/
noncomputable def truncR (x : ℝ) : ℤ := if 0 ≤ x then ⌊x⌋ else -⌊-x⌋

/-- `PriorityQueue::push`: update the priority when present, append when
absent. -/
def pushPQ : List (Nat × ℤ) → Nat → ℤ → List (Nat × ℤ)
  | [], n, p => [(n, p)]
  | x :: xs, n, p => if x.1 = n then (n, p) :: xs else x :: pushPQ xs n p

/-- `PriorityQueue::pop`: remove a greatest-priority entry (ties resolved to
the earliest-inserted entry; the crate leaves tie order unspecified). -/
def popMax : List (Nat × ℤ) → Option ((Nat × ℤ) × List (Nat × ℤ))
  | [] => none
  | x :: xs =>
    match popMax xs with
    | none => some (x, [])
    | some (m, rest) => if m.2 > x.2 then some (m, x :: rest) else some (x, xs)

/-- One neighbour expansion of the A* loop body. -/
noncomputable def expandA (g : GraphR) (endI current : Nat) (costCur : ℝ)
    (st : List (Nat × ℤ) × List (Nat × Option Nat) × List (Nat × ℝ)) (next : Nat) :
    List (Nat × ℤ) × List (Nat × Option Nat) × List (Nat × ℝ) :=
  let newCost := costCur + costG g current next
  let upd :
      List (Nat × ℤ) × List (Nat × Option Nat) × List (Nat × ℝ) :=
    (pushPQ st.1 next (-truncR (newCost + costG g endI next)),
     updA st.2.1 next (some current),
     updA st.2.2 next newCost)
  match lookupA st.2.2 next with
  | none => upd
  | some c => if newCost < c then upd else st

/-- The `while !frontier.is_empty()` loop of `a_star`, fuelled (the source
loop is unbounded; the fuel below suffices for every run this file reasons
about, and a fuelled-out run is reported as `none`). -/
noncomputable def aStarLoop (g : GraphR) (endI : Nat) :
    Nat → List (Nat × ℤ) → List (Nat × Option Nat) → List (Nat × ℝ) →
      Option (List (Nat × Option Nat))
  | 0, _, _, _ => none
  | fuel + 1, frontier, cameFrom, costSoFar =>
    match popMax frontier with
    | none => some cameFrom
    | some (cur, rest) =>
      if cur.1 = endI then some cameFrom
      else
        match lookupA costSoFar cur.1 with
        | none => none
        | some costCur =>
          let st := (neighboursG g cur.1).foldl (expandA g endI cur.1 costCur)
            (rest, cameFrom, costSoFar)
          aStarLoop g endI fuel st.1 st.2.1 st.2.2

/-- The back-pointer walk of `a_star`; `came_from[&previous.unwrap()]` is a
panicking `HashMap` index, hence the `Option`. -/
def reconstructA (cameFrom : List (Nat × Option Nat)) :
    Nat → Option Nat → List Nat → Option (List Nat)
  | 0, _, _ => none
  | fuel + 1, prev, acc =>
    match prev with
    | none => some acc
    | some p =>
      match lookupA cameFrom p with
      | none => none
      | some q => reconstructA cameFrom fuel q (p :: acc)

/-- A `map` that panics on a missing index (`self.nodes[n]`). -/
def mapOptList {α β : Type} (f : α → Option β) : List α → Option (List β)
  | [] => some []
  | x :: xs =>
    match f x, mapOptList f xs with
    | some y, some ys => some (y :: ys)
    | _, _ => none

/-- Rust `Graph::a_star`. -/
noncomputable def aStar (g : GraphR) (s e : Nat) : Option (List PtR) :=
  let fuel := g.nodes.length + g.edges.length + 2
  match aStarLoop g e fuel [(s, 0)] [(s, none)] [(s, (0 : ℝ))] with
  | none => none
  | some cameFrom =>
    match reconstructA cameFrom fuel (some e) [] with
    | none => none
    | some idxs => mapOptList (fun n => g.nodes[n]?) idxs

/-! ### C1, C6, C9: behaviour of `a_star` -/

/-- A graph in which node 1 is unreachable from node 0 (no edges at all). -/
noncomputable def gUnreachable : GraphR := ⟨[⟨0, 0⟩, ⟨1, 0⟩], []⟩

/-- C1: with `end` unreachable from `start`, `a_star` does not return an
explicit empty-path result: the back-pointer walk indexes
`came_from[&end]`, which is absent, and the program panics (modelled as
`none`). -/
theorem aStar_unreachable_end_panics : aStar gUnreachable 0 1 = none := by
  unfold aStar
  dsimp only
  rw [show gUnreachable.nodes.length + gUnreachable.edges.length + 2 = 3 + 1 from rfl]
  simp only [aStarLoop, popMax, reconstructA, lookupA, neighboursG, gUnreachable,
    List.filterMap_nil, List.dedup_nil, List.foldl_nil]
  norm_num
  simp [lookupA]

/-- C9: `a_star(s, s)` on any graph with `s` a valid node index terminates at
once (the first pop is `s = end`) and returns exactly `[nodes[s]]`. -/
theorem aStar_self_route (g : GraphR) (s : Nat) (hs : s < g.nodes.length) :
    aStar g s s = some [g.nodes[s]] := by
  unfold aStar
  dsimp only
  rw [show g.nodes.length + g.edges.length + 2
      = (g.nodes.length + g.edges.length + 1) + 1 from rfl]
  simp only [aStarLoop, popMax, reconstructA, lookupA, mapOptList]
  simp [lookupA, reconstructA, mapOptList, List.getElem?_eq_getElem hs]

/-- C9 witness: the theorem applied to a concrete graph and index. -/
theorem aStar_self_route_witness : aStar gUnreachable 0 0 = some [⟨0, 0⟩] := by
  have h := aStar_self_route gUnreachable 0 (by norm_num [gUnreachable])
  simpa [gUnreachable] using h

/-- The 4-node graph of the repository test
`a_star_will_use_shortest_of_possible_routes_in_terms_of_distance`:
no direct start-end edge. -/
noncomputable def gShort : GraphR :=
  ⟨[⟨0, 0⟩, ⟨5, 5⟩, ⟨5/2, 5/2⟩, ⟨3, 2⟩], [(0, 2), (0, 3), (1, 2), (1, 3)]⟩

/-- C6: on the 4-node test graph, `a_star(0, 1)` returns the route through the
interior node `(2.5, 2.5)` nearer the diagonal:
`[(0,0), (2.5,2.5), (5,5)]`. -/
theorem aStar_shortest_route : aStar gShort 0 1 = some [⟨0, 0⟩, ⟨5/2, 5/2⟩, ⟨5, 5⟩] := by
  have sq2 := Real.sq_sqrt (show (0:ℝ) ≤ 2 by norm_num)
  have nn2 := Real.sqrt_nonneg (2 : ℝ)
  have sq13 := Real.sq_sqrt (show (0:ℝ) ≤ 13 by norm_num)
  have nn13 := Real.sqrt_nonneg (13 : ℝ)
  have h25 : Real.sqrt 25 = 5 := by
    rw [show (25:ℝ) = 5 ^ 2 by norm_num, Real.sqrt_sq (by norm_num)]
  have h2pos : (0:ℝ) < Real.sqrt 2 := Real.sqrt_pos.mpr (by norm_num)
  have s2lo : (141/100 : ℝ) ≤ Real.sqrt 2 := by nlinarith
  have s2hi : Real.sqrt 2 ≤ 283/200 := by nlinarith
  have s13lo : (18/5 : ℝ) ≤ Real.sqrt 13 := by nlinarith
  have s13hi : Real.sqrt 13 ≤ 361/100 := by nlinarith
  have hA1 : truncR (Real.sqrt 25 / Real.sqrt 2 + Real.sqrt 25 / Real.sqrt 2) = 7 := by
    unfold truncR
    rw [if_pos (by positivity), Int.floor_eq_iff, h25, div_add_div_same]
    rw [le_div_iff₀ h2pos, div_lt_iff₀ h2pos]
    push_cast
    constructor <;> nlinarith
  have hA2 : truncR (Real.sqrt 13 + Real.sqrt 13) = 7 := by
    unfold truncR
    rw [if_pos (by positivity), Int.floor_eq_iff]
    push_cast
    constructor <;> nlinarith
  have hB1 : ¬(Real.sqrt 25 / Real.sqrt 2 + Real.sqrt 25 / Real.sqrt 2 < 0) := by
    rw [h25]
    exact not_lt.mpr (by positivity)
  have hB2 : ¬(Real.sqrt 13 + Real.sqrt 13 < 0) := not_lt.mpr (by positivity)
  have hB3 : ¬(Real.sqrt 13 + Real.sqrt 13
      < Real.sqrt 25 / Real.sqrt 2 + Real.sqrt 25 / Real.sqrt 2) := by
    rw [h25, div_add_div_same]
    intro h
    rw [lt_div_iff₀ h2pos] at h
    nlinarith
  have hnb0 : neighboursG gShort 0 = [2, 3] := by
    norm_num [neighboursG, gShort, List.filterMap_cons, List.filterMap_nil,
      List.dedup_cons_of_not_mem, List.dedup_nil]
  have hnb2 : neighboursG gShort 2 = [0, 1] := by
    norm_num [neighboursG, gShort, List.filterMap_cons, List.filterMap_nil,
      List.dedup_cons_of_not_mem, List.dedup_nil]
  have hnb3 : neighboursG gShort 3 = [0, 1] := by
    norm_num [neighboursG, gShort, List.filterMap_cons, List.filterMap_nil,
      List.dedup_cons_of_not_mem, List.dedup_nil]
  have hc02 : costG gShort 0 2 = Real.sqrt (25/2) := by norm_num [costG, gShort, distR]
  have hc03 : costG gShort 0 3 = Real.sqrt 13 := by norm_num [costG, gShort, distR]
  have hc20 : costG gShort 2 0 = Real.sqrt (25/2) := by norm_num [costG, gShort, distR]
  have hc21 : costG gShort 2 1 = Real.sqrt (25/2) := by norm_num [costG, gShort, distR]
  have hc30 : costG gShort 3 0 = Real.sqrt 13 := by norm_num [costG, gShort, distR]
  have hc31 : costG gShort 3 1 = Real.sqrt 13 := by norm_num [costG, gShort, distR]
  have hc12 : costG gShort 1 2 = Real.sqrt (25/2) := by norm_num [costG, gShort, distR]
  have hc13 : costG gShort 1 3 = Real.sqrt 13 := by norm_num [costG, gShort, distR]
  have hc11 : costG gShort 1 1 = 0 := by norm_num [costG, gShort, distR]
  have hc10 : costG gShort 1 0 = Real.sqrt 50 := by norm_num [costG, gShort, distR]
  have hn0 : gShort.nodes[0]? = some ⟨0, 0⟩ := rfl
  have hn1 : gShort.nodes[1]? = some ⟨5, 5⟩ := rfl
  have hn2 : gShort.nodes[2]? = some ⟨5/2, 5/2⟩ := rfl
  unfold aStar
  dsimp only
  rw [show gShort.nodes.length + gShort.edges.length + 2 = 9 + 1 from rfl]
  norm_num [aStarLoop, popMax, lookupA, hnb0, hnb2, hnb3, expandA, pushPQ, updA,
    reconstructA, mapOptList, hc02, hc03, hc20, hc21, hc30, hc31, hc12, hc13, hc11,
    hc10, hA1, hA2, hB1, hB2, hB3, hn0, hn1, hn2]

/-! ### `map.rs` query API (real-valued layer) -/

/-- `f32::signum` idealised on exactly-computed reals (`+0.0 ↦ 1`; the exact
zeroes arising here are `+0.0` in `f32`). -/
noncomputable def sgnf (x : ℝ) : ℝ := if x < 0 then -1 else 1

/-- Rust `fn on_line`, real-valued twin of `onLine` (the query API applies it
to `f32` points that are not grid points). -/
noncomputable def onLineR (point lineStart lineDirection : PtR) : Prop :=
  if dotR lineDirection lineDirection = 0 then point = lineStart
  else
    |cross2dR (point - lineStart) lineDirection| ≤ 2 / 100 ∧
      0 ≤ dotR (point - lineStart) lineDirection ∧
      dotR (point - lineStart) lineDirection ≤ dotR lineDirection lineDirection

/-- Rust `Map::on_land`. -/
noncomputable def onLand (m : Map) (point : PtR) : Prop :=
  ∃ island ∈ m.islands, ∃ tri ∈ chunks3 island,
    let a := toR (tri.getD 0 ⟨0, 0⟩)
    let b := toR (tri.getD 1 ⟨0, 0⟩)
    let c := toR (tri.getD 2 ⟨0, 0⟩)
    (sgnf (cross2dR (b - a) (point - a)) = sgnf (cross2dR (c - b) (point - b)) ∧
        sgnf (cross2dR (b - a) (point - a)) = sgnf (cross2dR (a - c) (point - c))) ∨
      (onLineR point a (b - a) ∨ onLineR point b (c - b) ∨ onLineR point c (a - c))

/-- One step of the edge-count fold of `Map::outer_edges` (the
`HashMap<Edge, usize>` is an insertion-ordered association list). -/
def addEdgeCount (mcount : List (EdgeZ × Nat)) (e : EdgeZ) : List (EdgeZ × Nat) :=
  let rev : EdgeZ := ⟨e.b, e.a⟩
  let c := (lookupA mcount e).getD 0
  let rc := (lookupA mcount rev).getD 0
  if c > 0 then updA mcount e (c + 1)
  else if rc > 0 then updA mcount rev (rc + 1)
  else updA mcount e 1

/-- The three directed edges of every triangle chunk of an island. -/
def islandEdges (island : List PtZ) : List EdgeZ :=
  ((chunks3 island).map fun tri =>
    [⟨tri.getD 0 ⟨0, 0⟩, tri.getD 1 ⟨0, 0⟩⟩,
     ⟨tri.getD 1 ⟨0, 0⟩, tri.getD 2 ⟨0, 0⟩⟩,
     ⟨tri.getD 2 ⟨0, 0⟩, tri.getD 0 ⟨0, 0⟩⟩]).flatten

/-- Rust `Map::outer_edges`. -/
def outerEdges (m : Map) : List EdgeZ :=
  (m.islands.map fun island =>
    (((islandEdges island).foldl addEdgeCount []).filter fun ec =>
      decide (ec.2 = 1)).map Prod.fst).flatten

/-- `HashSet::insert` modelled as ordered insert-if-absent. -/
def dedupInsert (l : List PtZ) (p : PtZ) : List PtZ :=
  if p ∈ l then l else l ++ [p]

/-- The corner `HashSet` of `corners_and_edges`, in insertion order (the
reordering `σ` of the callers models the unspecified iteration order). -/
def cornersOf (oe : List EdgeZ) : List PtZ :=
  oe.foldl (fun acc e => dedupInsert (dedupInsert acc e.a) e.b) []

/-- Rust `Map::corners_and_edges`.  `σ` is the iteration order of the corner
`HashSet` (Rust fixes no order; `σ` is expected to permute its input). -/
noncomputable def cornersAndEdges (σ : List PtZ → List PtZ) (m : Map) :
    List PtR × List (Nat × Nat) :=
  let oe := outerEdges m
  let corners := σ (cornersOf oe)
  let edges := oe.map fun e => (corners.indexOf e.a, corners.indexOf e.b)
  let cornersR := corners.map toR
  let adjusted := (List.range cornersR.length).map fun ci =>
    let cornerEdges := edges.filterMap fun e =>
      if e.1 = ci then some e else if e.2 = ci then some (e.2, e.1) else none
    cornerEdges.foldl
      (fun acc e => acc + normalizeR (cornersR.getD e.1 ⟨0, 0⟩ - cornersR.getD e.2 ⟨0, 0⟩))
      (cornersR.getD ci ⟨0, 0⟩)
  (adjusted, edges)

/-- `f32::MAX`, exactly. -/
noncomputable def f32Max : ℝ := (2 - 2 ^ (-23 : ℤ)) * 2 ^ 127

/-- The `possible_point_on_edge` computation of
`Map::closest_point_of_line_on_edge` for one boundary edge.  As in
`intersect`, the colinear branch guards the division by
`line_direction.dot(&line_direction)`: when it is zero the Rust quotients are
NaN and every range test is false. -/
noncomputable def clpCandidate (strict : Bool) (startingPoint lineDirection : PtR)
    (outerEdge : EdgeZ) : Option PtR :=
  let edgeDirection := toR outerEdge.b - toR outerEdge.a
  let edgeStartingPoint := toR outerEdge.a
  let crossOfDirections := cross2dR lineDirection edgeDirection
  if crossOfDirections = 0 then
    if cross2dR (edgeStartingPoint - startingPoint) lineDirection = 0 then
      if dotR lineDirection lineDirection = 0 then none
      else
        let t0 := dotR (edgeStartingPoint - startingPoint) lineDirection /
          dotR lineDirection lineDirection
        let t1 := t0 + dotR edgeDirection lineDirection / dotR lineDirection lineDirection
        if t1 ≤ 1 ∧ 0 ≤ t1 then
          if strict then
            if 0 ≤ t0 ∧ t0 ≤ 1 then some (edgeStartingPoint + smulR t1 edgeDirection)
            else none
          else some (edgeStartingPoint + smulR t1 edgeDirection)
        else none
    else none
  else
    let t := cross2dR (edgeStartingPoint - startingPoint)
      (smulR (1 / crossOfDirections) edgeDirection)
    let u := cross2dR (edgeStartingPoint - startingPoint)
      (smulR (1 / crossOfDirections) lineDirection)
    if 0 ≤ u ∧ u ≤ 1 then
      if strict then
        if 0 ≤ t ∧ t ≤ 1 then some (edgeStartingPoint + smulR u edgeDirection)
        else none
      else some (edgeStartingPoint + smulR u edgeDirection)
    else none

/-- The per-edge fold step of `Map::closest_point_of_line_on_edge`. -/
noncomputable def clpStep (strict : Bool) (startingPoint lineDirection : PtR)
    (acc : Option PtR × ℝ) (outerEdge : EdgeZ) : Option PtR × ℝ :=
  match clpCandidate strict startingPoint lineDirection outerEdge with
  | none => acc
  | some pointOnEdge =>
    if distR pointOnEdge startingPoint < acc.2 then
      (some pointOnEdge, distR pointOnEdge startingPoint)
    else acc

/-- Rust `Map::closest_point_of_line_on_edge`. -/
noncomputable def closestPointOfLineOnEdge (m : Map) (startingPoint lineDirection : PtR)
    (strict : Bool) : Option PtR :=
  ((outerEdges m).foldl (clpStep strict startingPoint lineDirection) (none, f32Max)).1

open Classical in
/-- The per-edge fold step of `Map::closest_point_on_edge`. -/
noncomputable def cpeStep (m : Map) (point : PtR) (acc : PtR × ℝ) (outerEdge : EdgeZ) :
    PtR × ℝ :=
  let e0 := toR outerEdge.a
  let e1 := toR outerEdge.b
  let distanceSquared := distR e0 e1 ^ 2
  let t := dotR (point - e0) (e1 - e0) / distanceSquared
  let clampedT := if t > 1 then 1 else if t < 0 then 0 else t
  let closestPointForEdge := e0 + smulR clampedT (e1 - e0)
  let d := distR closestPointForEdge point
  if d < acc.2 then
    let direction := normalizeR (e1 - e0)
    let perpendicularDirection : PtR := ⟨-direction.y, direction.x⟩
    let adjusted := closestPointForEdge + perpendicularDirection
    (if onLand m adjusted then closestPointForEdge - perpendicularDirection else adjusted, d)
  else acc

/-- Rust `Map::closest_point_on_edge` (starts from `Point2::origin()` and
`f32::MAX`). -/
noncomputable def closestPointOnEdge (m : Map) (point : PtR) : PtR :=
  ((outerEdges m).foldl (cpeStep m point) (⟨0, 0⟩, f32Max)).1

/-- The `new_edges` of `Map::nodes_and_edges_connected`: an injected point is
connected to a node exactly when the strict boundary cast finds nothing and
the indices differ. -/
noncomputable def injectedEdges (σ : List PtZ → List PtZ) (m : Map) (points : List PtR) :
    List (Nat × Nat) :=
  let corners := (cornersAndEdges σ m).1
  let nodes := corners ++ points
  let cornersCount := corners.length
  (points.enum.map fun pip =>
    nodes.enum.filterMap fun nin =>
      if (closestPointOfLineOnEdge m pip.2 (nin.2 - pip.2) true).isNone
          && decide (pip.1 + cornersCount ≠ nin.1) then
        some (pip.1 + cornersCount, nin.1)
      else none).flatten

/-- Rust `Map::nodes_and_edges_connected`. -/
noncomputable def nodesAndEdgesConnected (σ : List PtZ → List PtZ) (m : Map)
    (points : List PtR) : GraphR :=
  ⟨(cornersAndEdges σ m).1 ++ points, (cornersAndEdges σ m).2 ++ injectedEdges σ m points⟩

/-! ### C10: `closest_point_on_edge` on a map without boundary edges -/

/-- C10: when a map yields no boundary edges, the fold of
`closest_point_on_edge` never leaves its initial accumulator and the origin is
returned for every query point. -/
theorem closestPointOnEdge_no_edges (m : Map) (h : outerEdges m = []) (p : PtR) :
    closestPointOnEdge m p = ⟨0, 0⟩ := by
  unfold closestPointOnEdge
  rw [h]
  rfl

/-- C10 witness: the empty-island map. -/
theorem closestPointOnEdge_no_edges_witness : closestPointOnEdge ⟨[]⟩ ⟨3, 4⟩ = ⟨0, 0⟩ :=
  closestPointOnEdge_no_edges ⟨[]⟩ rfl ⟨3, 4⟩

/-! ### C7: query results depend on the hash-container iteration order -/

lemma PtR.add_def (p q : PtR) : p + q = ⟨p.x + q.x, p.y + q.y⟩ := rfl

lemma PtR.sub_def (p q : PtR) : p - q = ⟨p.x - q.x, p.y - q.y⟩ := rfl

/-- A square island given as its two-triangle flat list. -/
def mapSquare : Map := ⟨[[⟨0, 0⟩, ⟨0, 8⟩, ⟨8, 8⟩, ⟨0, 0⟩, ⟨8, 8⟩, ⟨8, 0⟩]]⟩

/-- A second legitimate iteration order for the corner `HashSet`. -/
def revOrd : List PtZ → List PtZ := fun l => l.reverse

/-- A model of a hash-container iteration order is valid when it permutes the
inserted elements. -/
def ValidOrd (σ : List PtZ → List PtZ) : Prop := ∀ l, (σ l).Perm l

lemma sqrt64 : Real.sqrt 64 = 8 := by
  rw [show (64:ℝ) = 8 ^ 2 by norm_num, Real.sqrt_sq (by norm_num)]

lemma nodesSq_id : (nodesAndEdgesConnected id mapSquare []).nodes
    = [⟨-1, -1⟩, ⟨-1, 9⟩, ⟨9, 9⟩, ⟨9, -1⟩] := by
  show (cornersAndEdges id mapSquare).1 ++ [] = _
  rw [List.append_nil]
  norm_num [cornersAndEdges, mapSquare, outerEdges, islandEdges, addEdgeCount, lookupA,
    updA, chunks3, cornersOf, dedupInsert, List.indexOf_cons,
    show List.range 4 = [0, 1, 2, 3] from rfl,
    List.filterMap_cons, List.filterMap_nil, List.foldl_cons, List.foldl_nil,
    List.getD, List.getElem?_cons_zero, List.getElem?_cons_succ,
    beq_eq_decide, PtZ.mk.injEq, PtR.add_def, PtR.sub_def,
    normalizeR, smulR, dotR, toR, sqrt64, PtR.mk.injEq]

lemma nodesSq_rev : (nodesAndEdgesConnected revOrd mapSquare []).nodes
    = [⟨9, -1⟩, ⟨9, 9⟩, ⟨-1, 9⟩, ⟨-1, -1⟩] := by
  show (cornersAndEdges revOrd mapSquare).1 ++ [] = _
  rw [List.append_nil]
  norm_num [cornersAndEdges, mapSquare, outerEdges, islandEdges, addEdgeCount, lookupA,
    updA, chunks3, cornersOf, dedupInsert, List.indexOf_cons,
    show revOrd [(⟨0, 0⟩ : PtZ), ⟨0, 8⟩, ⟨8, 8⟩, ⟨8, 0⟩] = [⟨8, 0⟩, ⟨8, 8⟩, ⟨0, 8⟩, ⟨0, 0⟩]
      from rfl,
    show List.range 4 = [0, 1, 2, 3] from rfl,
    List.filterMap_cons, List.filterMap_nil, List.foldl_cons, List.foldl_nil,
    List.getD, List.getElem?_cons_zero, List.getElem?_cons_succ,
    beq_eq_decide, PtZ.mk.injEq, PtR.add_def, PtR.sub_def,
    normalizeR, smulR, dotR, toR, sqrt64, PtR.mk.injEq]

/-- C7 counterexample: two valid iteration orders of the corner `HashSet` give
different `nodes_and_edges_connected` results on the same inputs (the node
ordering differs), refuting "identical results" as stated. -/
theorem nodesAndEdges_order_dependent :
    ValidOrd id ∧ ValidOrd revOrd ∧
      nodesAndEdgesConnected revOrd mapSquare [] ≠ nodesAndEdgesConnected id mapSquare [] := by
  refine ⟨fun l => List.Perm.refl l, fun l => List.reverse_perm l, fun heq => ?_⟩
  have h1 := congrArg GraphR.nodes heq
  rw [nodesSq_id, nodesSq_rev] at h1
  norm_num [PtR.mk.injEq] at h1

/-- C7 (amended): the query functions are deterministic only up to the
iteration order of their hash containers: on the square test map, reversing
the corner-set iteration order reverses the node list (same nodes, different
ordering and indices). -/
theorem nodesAndEdges_reverse_order :
    (nodesAndEdgesConnected revOrd mapSquare []).nodes
      = ((nodesAndEdgesConnected id mapSquare []).nodes).reverse := by
  rw [nodesSq_id, nodesSq_rev]
  rfl

/-! ### C8: the result of `closest_point_on_edge` -/

/-- Two triangular islands forming a kite that shares the segment from
(0,10) to (0,-10). -/
def mapKite : Map := ⟨[[⟨0, 10⟩, ⟨0, -10⟩, ⟨-10, 0⟩], [⟨0, 10⟩, ⟨10, 0⟩, ⟨0, -10⟩]]⟩

lemma kite_outer : outerEdges mapKite =
    [⟨⟨0, 10⟩, ⟨0, -10⟩⟩, ⟨⟨0, -10⟩, ⟨-10, 0⟩⟩, ⟨⟨-10, 0⟩, ⟨0, 10⟩⟩,
     ⟨⟨0, 10⟩, ⟨10, 0⟩⟩, ⟨⟨10, 0⟩, ⟨0, -10⟩⟩, ⟨⟨0, -10⟩, ⟨0, 10⟩⟩] := rfl

lemma f32Max_pos : (0 : ℝ) < f32Max := by
  have h23 : (2 : ℝ) ^ (-23 : ℤ) = (8388608)⁻¹ := by
    rw [zpow_neg]
    norm_num
  unfold f32Max
  rw [h23]
  norm_num

lemma onLand_kite_right : onLand mapKite ⟨1, 0⟩ := by
  refine ⟨[⟨0, 10⟩, ⟨10, 0⟩, ⟨0, -10⟩], by simp [mapKite], [⟨0, 10⟩, ⟨10, 0⟩, ⟨0, -10⟩],
    by simp [chunks3], ?_⟩
  dsimp only
  left
  norm_num [sgnf, cross2dR, toR, PtR.sub_def, List.getD, List.getElem?_cons_zero,
    List.getElem?_cons_succ]

lemma sqrt400 : Real.sqrt 400 = 20 := by
  rw [show (400 : ℝ) = 20 ^ 2 by norm_num, Real.sqrt_sq (by norm_num)]

lemma kite_eval : closestPointOnEdge mapKite ⟨0, 0⟩ = ⟨-1, 0⟩ := by
  have h1 : cpeStep mapKite ⟨0, 0⟩ (⟨0, 0⟩, f32Max) ⟨⟨0, 10⟩, ⟨0, -10⟩⟩ = (⟨-1, 0⟩, 0) := by
    unfold cpeStep
    norm_num [distR, dotR, smulR, normalizeR, toR, PtR.add_def, PtR.sub_def, sqrt400,
      Real.sqrt_zero, f32Max_pos, onLand_kite_right, PtR.mk.injEq]
  have hkeep : ∀ e : EdgeZ, cpeStep mapKite ⟨0, 0⟩ (⟨-1, 0⟩, 0) e = (⟨-1, 0⟩, 0) := by
    intro e
    unfold cpeStep
    dsimp only
    simp only [distR]
    rw [if_neg (not_lt.mpr (Real.sqrt_nonneg _))]
  unfold closestPointOnEdge
  rw [kite_outer]
  simp only [List.foldl_cons, List.foldl_nil, h1, hkeep]

/-- A real point lies on the segment of an integer boundary edge. -/
noncomputable def OnSegR (p : PtR) (e : EdgeZ) : Prop :=
  ∃ t : ℝ, 0 ≤ t ∧ t ≤ 1 ∧ p = toR e.a + smulR t (toR e.b - toR e.a)

/-- C8 counterexample: the kite map has boundary edges, yet
`closest_point_on_edge` at the origin returns (-1,0), a point which is on
land and lies on no boundary edge — its distance to every boundary edge is
positive, and `on_land` is true for it.  (The first boundary edge projects
the origin onto itself; the (1,0)-nudge lands on the right island, so the
code flips to (-1,0), which is inside the left island, and never re-checks.) -/
theorem closestPointOnEdge_lands_inland :
    outerEdges mapKite ≠ [] ∧
      onLand mapKite (closestPointOnEdge mapKite ⟨0, 0⟩) ∧
      ∀ e ∈ outerEdges mapKite, ¬ OnSegR (closestPointOnEdge mapKite ⟨0, 0⟩) e := by
  refine ⟨by simp [kite_outer], ?_, ?_⟩
  · rw [kite_eval]
    refine ⟨[⟨0, 10⟩, ⟨0, -10⟩, ⟨-10, 0⟩], by simp [mapKite], [⟨0, 10⟩, ⟨0, -10⟩, ⟨-10, 0⟩],
      by simp [chunks3], ?_⟩
    dsimp only
    left
    norm_num [sgnf, cross2dR, toR, PtR.sub_def, List.getD, List.getElem?_cons_zero,
      List.getElem?_cons_succ]
  · rw [kite_eval]
    intro e he
    simp only [kite_outer, List.mem_cons, List.not_mem_nil, or_false] at he
    rcases he with rfl | rfl | rfl | rfl | rfl | rfl <;>
      · rintro ⟨t, ht0, ht1, hp⟩
        simp only [toR, smulR, PtR.sub_def, PtR.add_def, PtR.mk.injEq] at hp
        obtain ⟨hx, hy⟩ := hp
        push_cast at hx hy
        linarith

/-- The point `r` is at distance exactly 1 from a point of some edge of `es`. -/
noncomputable def UnitFrom (es : List EdgeZ) (r : PtR) : Prop :=
  ∃ e ∈ es, ∃ q : PtR, OnSegR q e ∧ distR r q = 1

lemma clamp01 (t : ℝ) :
    0 ≤ (if t > 1 then (1 : ℝ) else if t < 0 then 0 else t) ∧
      (if t > 1 then (1 : ℝ) else if t < 0 then 0 else t) ≤ 1 := by
  split
  · exact ⟨zero_le_one, le_rfl⟩
  split
  · exact ⟨le_rfl, zero_le_one⟩
  exact ⟨le_of_not_lt (by assumption), le_of_not_lt (by assumption)⟩

lemma perp_sq (vx vy : ℝ) (hs : 0 < vx * vx + vy * vy) :
    (-(1 / Real.sqrt (vx * vx + vy * vy) * vy)) ^ 2 +
      (1 / Real.sqrt (vx * vx + vy * vy) * vx) ^ 2 = 1 := by
  have hsq : Real.sqrt (vx * vx + vy * vy) ^ 2 = vx * vx + vy * vy := Real.sq_sqrt hs.le
  have hq : Real.sqrt (vx * vx + vy * vy) ≠ 0 := ne_of_gt (Real.sqrt_pos.mpr hs)
  field_simp
  linarith [hsq]

lemma dist_perp (c v : PtR) (hs : 0 < dotR v v) :
    distR (c + ⟨-(normalizeR v).y, (normalizeR v).x⟩) c = 1 ∧
      distR (c - ⟨-(normalizeR v).y, (normalizeR v).x⟩) c = 1 := by
  simp only [dotR] at hs
  have hperp := perp_sq v.x v.y hs
  constructor
  · simp only [distR, PtR.add_def, normalizeR, smulR, dotR]
    rw [show (c.x + -(1 / Real.sqrt (v.x * v.x + v.y * v.y) * v.y) - c.x) ^ 2 +
        (c.y + 1 / Real.sqrt (v.x * v.x + v.y * v.y) * v.x - c.y) ^ 2
        = (-(1 / Real.sqrt (v.x * v.x + v.y * v.y) * v.y)) ^ 2 +
          (1 / Real.sqrt (v.x * v.x + v.y * v.y) * v.x) ^ 2 by ring, hperp, Real.sqrt_one]
  · simp only [distR, PtR.sub_def, normalizeR, smulR, dotR]
    rw [show (c.x - -(1 / Real.sqrt (v.x * v.x + v.y * v.y) * v.y) - c.x) ^ 2 +
        (c.y - 1 / Real.sqrt (v.x * v.x + v.y * v.y) * v.x - c.y) ^ 2
        = (-(1 / Real.sqrt (v.x * v.x + v.y * v.y) * v.y)) ^ 2 +
          (1 / Real.sqrt (v.x * v.x + v.y * v.y) * v.x) ^ 2 by ring, hperp, Real.sqrt_one]

lemma two_pow_127_le_f32Max : (2 : ℝ) ^ 127 ≤ f32Max := by
  have h23 : (2 : ℝ) ^ (-23 : ℤ) = (8388608)⁻¹ := by
    rw [zpow_neg]
    norm_num
  unfold f32Max
  rw [h23]
  have hp : (0 : ℝ) < 2 ^ 127 := by positivity
  nlinarith [hp]

lemma dist_clamped_lt (p : PtR) (e : EdgeZ) (ct : ℝ) (h0 : 0 ≤ ct) (h1 : ct ≤ 1)
    (hax : |(e.a.x : ℝ)| ≤ 2 ^ 31) (hay : |(e.a.y : ℝ)| ≤ 2 ^ 31)
    (hbx : |(e.b.x : ℝ)| ≤ 2 ^ 31) (hby : |(e.b.y : ℝ)| ≤ 2 ^ 31)
    (hpx : |p.x| ≤ 2 ^ 31) (hpy : |p.y| ≤ 2 ^ 31) :
    distR (toR e.a + smulR ct (toR e.b - toR e.a)) p < f32Max := by
  obtain ⟨hax1, hax2⟩ := abs_le.mp hax
  obtain ⟨hay1, hay2⟩ := abs_le.mp hay
  obtain ⟨hbx1, hbx2⟩ := abs_le.mp hbx
  obtain ⟨hby1, hby2⟩ := abs_le.mp hby
  obtain ⟨hpx1, hpx2⟩ := abs_le.mp hpx
  obtain ⟨hpy1, hpy2⟩ := abs_le.mp hpy
  have hux : (e.a.x : ℝ) + ct * ((e.b.x : ℝ) - (e.a.x : ℝ)) ≤ 2 ^ 31 := by
    nlinarith [mul_nonneg h0 (show (0 : ℝ) ≤ 2 ^ 31 - (e.b.x : ℝ) by linarith),
      mul_nonneg (show (0 : ℝ) ≤ 1 - ct by linarith)
        (show (0 : ℝ) ≤ 2 ^ 31 - (e.a.x : ℝ) by linarith)]
  have hlx : -(2 : ℝ) ^ 31 ≤ (e.a.x : ℝ) + ct * ((e.b.x : ℝ) - (e.a.x : ℝ)) := by
    nlinarith [mul_nonneg h0 (show (0 : ℝ) ≤ (e.b.x : ℝ) + 2 ^ 31 by linarith),
      mul_nonneg (show (0 : ℝ) ≤ 1 - ct by linarith)
        (show (0 : ℝ) ≤ (e.a.x : ℝ) + 2 ^ 31 by linarith)]
  have huy : (e.a.y : ℝ) + ct * ((e.b.y : ℝ) - (e.a.y : ℝ)) ≤ 2 ^ 31 := by
    nlinarith [mul_nonneg h0 (show (0 : ℝ) ≤ 2 ^ 31 - (e.b.y : ℝ) by linarith),
      mul_nonneg (show (0 : ℝ) ≤ 1 - ct by linarith)
        (show (0 : ℝ) ≤ 2 ^ 31 - (e.a.y : ℝ) by linarith)]
  have hly : -(2 : ℝ) ^ 31 ≤ (e.a.y : ℝ) + ct * ((e.b.y : ℝ) - (e.a.y : ℝ)) := by
    nlinarith [mul_nonneg h0 (show (0 : ℝ) ≤ (e.b.y : ℝ) + 2 ^ 31 by linarith),
      mul_nonneg (show (0 : ℝ) ≤ 1 - ct by linarith)
        (show (0 : ℝ) ≤ (e.a.y : ℝ) + 2 ^ 31 by linarith)]
  have hsqx : ((e.a.x : ℝ) + ct * ((e.b.x : ℝ) - (e.a.x : ℝ)) - p.x) ^ 2 ≤ (2 ^ 32) ^ 2 :=
    sq_le_sq' (by linarith) (by linarith)
  have hsqy : ((e.a.y : ℝ) + ct * ((e.b.y : ℝ) - (e.a.y : ℝ)) - p.y) ^ 2 ≤ (2 ^ 32) ^ 2 :=
    sq_le_sq' (by linarith) (by linarith)
  have hfm2 : (2 : ℝ) ^ 254 ≤ f32Max ^ 2 := by
    have h := pow_le_pow_left₀ (show (0 : ℝ) ≤ 2 ^ 127 by positivity) two_pow_127_le_f32Max 2
    rw [← pow_mul] at h
    rw [show (127 * 2 : ℕ) = 254 by norm_num] at h
    exact h
  simp only [distR, toR, smulR, PtR.add_def, PtR.sub_def]
  rw [Real.sqrt_lt' f32Max_pos]
  have hnum : ((2 : ℝ) ^ 32) ^ 2 + (2 ^ 32) ^ 2 < 2 ^ 254 := by norm_num
  linarith

lemma dot_pos_of_ne (a b : PtZ) (h : a ≠ b) :
    0 < dotR (toR b - toR a) (toR b - toR a) := by
  have hc : (b.x : ℝ) ≠ (a.x : ℝ) ∨ (b.y : ℝ) ≠ (a.y : ℝ) := by
    by_contra hcc
    push_neg at hcc
    refine h ?_
    cases a with
    | mk ax ay =>
      cases b with
      | mk bx by' =>
        simp only [PtZ.mk.injEq]
        constructor
        · exact_mod_cast hcc.1.symm
        · exact_mod_cast hcc.2.symm
  simp only [dotR, toR, PtR.sub_def]
  rcases hc with hx | hy
  · have h2 : ((b.x : ℝ) - (a.x : ℝ)) ≠ 0 := sub_ne_zero.mpr hx
    have h3 := mul_self_pos.mpr h2
    have h4 := mul_self_nonneg ((b.y : ℝ) - (a.y : ℝ))
    linarith
  · have h2 : ((b.y : ℝ) - (a.y : ℝ)) ≠ 0 := sub_ne_zero.mpr hy
    have h3 := mul_self_pos.mpr h2
    have h4 := mul_self_nonneg ((b.x : ℝ) - (a.x : ℝ))
    linarith

lemma cpeStep_update (m : Map) (p : PtR) (acc : PtR × ℝ) (e : EdgeZ)
    (hnd : 0 < dotR (toR e.b - toR e.a) (toR e.b - toR e.a)) :
    cpeStep m p acc e = acc ∨
      ∃ q : PtR, OnSegR q e ∧ distR (cpeStep m p acc e).1 q = 1 := by
  unfold cpeStep
  dsimp only
  obtain ⟨h0, h1⟩ :=
    clamp01 (dotR (p - toR e.a) (toR e.b - toR e.a) / distR (toR e.a) (toR e.b) ^ 2)
  generalize hg :
      (if dotR (p - toR e.a) (toR e.b - toR e.a) / distR (toR e.a) (toR e.b) ^ 2 > 1
        then (1 : ℝ)
        else if dotR (p - toR e.a) (toR e.b - toR e.a) / distR (toR e.a) (toR e.b) ^ 2 < 0
          then 0
          else dotR (p - toR e.a) (toR e.b - toR e.a) / distR (toR e.a) (toR e.b) ^ 2) = ct
    at h0 h1 ⊢
  rcases lt_or_le (distR (toR e.a + smulR ct (toR e.b - toR e.a)) p) acc.2 with hlt | hge
  · rw [if_pos hlt]
    right
    refine ⟨toR e.a + smulR ct (toR e.b - toR e.a), ⟨ct, h0, h1, rfl⟩, ?_⟩
    by_cases hol : onLand m (toR e.a + smulR ct (toR e.b - toR e.a) +
        ⟨-(normalizeR (toR e.b - toR e.a)).y, (normalizeR (toR e.b - toR e.a)).x⟩)
    · rw [if_pos hol]
      exact (dist_perp (toR e.a + smulR ct (toR e.b - toR e.a)) (toR e.b - toR e.a) hnd).2
    · rw [if_neg hol]
      exact (dist_perp (toR e.a + smulR ct (toR e.b - toR e.a)) (toR e.b - toR e.a) hnd).1
  · rw [if_neg (not_lt.mpr hge)]
    left
    rfl

lemma cpeStep_init (m : Map) (p : PtR) (e : EdgeZ)
    (hnd : 0 < dotR (toR e.b - toR e.a) (toR e.b - toR e.a))
    (hax : |(e.a.x : ℝ)| ≤ 2 ^ 31) (hay : |(e.a.y : ℝ)| ≤ 2 ^ 31)
    (hbx : |(e.b.x : ℝ)| ≤ 2 ^ 31) (hby : |(e.b.y : ℝ)| ≤ 2 ^ 31)
    (hpx : |p.x| ≤ 2 ^ 31) (hpy : |p.y| ≤ 2 ^ 31) :
    ∃ q : PtR, OnSegR q e ∧ distR (cpeStep m p (⟨0, 0⟩, f32Max) e).1 q = 1 := by
  unfold cpeStep
  dsimp only
  obtain ⟨h0, h1⟩ :=
    clamp01 (dotR (p - toR e.a) (toR e.b - toR e.a) / distR (toR e.a) (toR e.b) ^ 2)
  generalize hg :
      (if dotR (p - toR e.a) (toR e.b - toR e.a) / distR (toR e.a) (toR e.b) ^ 2 > 1
        then (1 : ℝ)
        else if dotR (p - toR e.a) (toR e.b - toR e.a) / distR (toR e.a) (toR e.b) ^ 2 < 0
          then 0
          else dotR (p - toR e.a) (toR e.b - toR e.a) / distR (toR e.a) (toR e.b) ^ 2) = ct
    at h0 h1 ⊢
  rw [if_pos (dist_clamped_lt p e ct h0 h1 hax hay hbx hby hpx hpy)]
  refine ⟨toR e.a + smulR ct (toR e.b - toR e.a), ⟨ct, h0, h1, rfl⟩, ?_⟩
  by_cases hol : onLand m (toR e.a + smulR ct (toR e.b - toR e.a) +
      ⟨-(normalizeR (toR e.b - toR e.a)).y, (normalizeR (toR e.b - toR e.a)).x⟩)
  · rw [if_pos hol]
    exact (dist_perp (toR e.a + smulR ct (toR e.b - toR e.a)) (toR e.b - toR e.a) hnd).2
  · rw [if_neg hol]
    exact (dist_perp (toR e.a + smulR ct (toR e.b - toR e.a)) (toR e.b - toR e.a) hnd).1

lemma cpeFold_unit (m : Map) (p : PtR) (E : List EdgeZ) :
    ∀ (es : List EdgeZ) (acc : PtR × ℝ),
      (∀ e ∈ es, e ∈ E ∧ 0 < dotR (toR e.b - toR e.a) (toR e.b - toR e.a)) →
      UnitFrom E acc.1 → UnitFrom E (es.foldl (cpeStep m p) acc).1 := by
  intro es
  induction es with
  | nil => exact fun acc _ h => h
  | cons e rest ih =>
    intro acc hes hacc
    rw [List.foldl_cons]
    refine ih _ (fun x hx => hes x (List.mem_cons_of_mem e hx)) ?_
    rcases cpeStep_update m p acc e (hes e (List.mem_cons_self e rest)).2 with h | ⟨q, hq, hd⟩
    · rw [h]
      exact hacc
    · exact ⟨e, (hes e (List.mem_cons_self e rest)).1, q, hq, hd⟩

/-- C8 (amended): on every map with at least one boundary edge, whose
boundary edges are nondegenerate and whose coordinates (and the query point)
are within `f32`-exact integer range, `closest_point_on_edge` returns a point
at distance exactly 1 from a point of some boundary edge — the unit
perpendicular nudge is baked into the returned point, so the distance-0 and
not-on-land guarantees of the claim do not hold (see the counterexample). -/
theorem closestPointOnEdge_unit_from_boundary (m : Map) (p : PtR)
    (hne : outerEdges m ≠ [])
    (hb : ∀ e ∈ outerEdges m, e.a ≠ e.b ∧
      |(e.a.x : ℝ)| ≤ 2 ^ 31 ∧ |(e.a.y : ℝ)| ≤ 2 ^ 31 ∧
      |(e.b.x : ℝ)| ≤ 2 ^ 31 ∧ |(e.b.y : ℝ)| ≤ 2 ^ 31)
    (hpx : |p.x| ≤ 2 ^ 31) (hpy : |p.y| ≤ 2 ^ 31) :
    UnitFrom (outerEdges m) (closestPointOnEdge m p) := by
  obtain ⟨e, rest, hE⟩ : ∃ e rest, outerEdges m = e :: rest := by
    rcases hx : outerEdges m with _ | ⟨e, rest⟩
    · exact absurd hx hne
    · exact ⟨e, rest, rfl⟩
  unfold closestPointOnEdge
  rw [hE, List.foldl_cons]
  obtain ⟨hqe, hax, hay, hbx, hby⟩ := hb e (by rw [hE]; exact List.mem_cons_self e rest)
  obtain ⟨q, hq, hd⟩ := cpeStep_init m p e (dot_pos_of_ne e.a e.b hqe) hax hay hbx hby hpx hpy
  exact cpeFold_unit m p (e :: rest) rest (cpeStep m p (⟨0, 0⟩, f32Max) e)
    (fun x hx => ⟨List.mem_cons_of_mem e hx,
      dot_pos_of_ne x.a x.b (hb x (by rw [hE]; exact List.mem_cons_of_mem e hx)).1⟩)
    ⟨e, List.mem_cons_self e rest, q, hq, hd⟩

/-- C8 witness: the amended theorem applied to the kite map at the origin. -/
theorem closestPointOnEdge_unit_from_boundary_witness :
    UnitFrom (outerEdges mapKite) (closestPointOnEdge mapKite ⟨0, 0⟩) :=
  closestPointOnEdge_unit_from_boundary mapKite ⟨0, 0⟩ (by simp [kite_outer])
    (by
      intro e he
      simp only [kite_outer, List.mem_cons, List.not_mem_nil, or_false] at he
      rcases he with rfl | rfl | rfl | rfl | rfl | rfl <;>
        exact ⟨by decide, by norm_num, by norm_num, by norm_num, by norm_num⟩)
    (by norm_num) (by norm_num)

/-! ### C5: injected edges never strictly cross a boundary edge -/

/-- The open segment from `a` to `b` strictly crosses the boundary edge `e`:
the directions are not parallel and the unique intersection lies strictly
inside both segments. -/
noncomputable def StrictCross (a b : PtR) (e : EdgeZ) : Prop :=
  cross2dR (b - a) (toR e.b - toR e.a) ≠ 0 ∧
    ∃ t u : ℝ, 0 < t ∧ t < 1 ∧ 0 < u ∧ u < 1 ∧
      a + smulR t (b - a) = toR e.a + smulR u (toR e.b - toR e.a)

/-- No boundary edge of `m` is strictly crossed by the segment from `a`
to `b`. -/
noncomputable def NoBoundaryCross (m : Map) (a b : PtR) : Prop :=
  ∀ e ∈ outerEdges m, ¬ StrictCross a b e

lemma dist_seg_lt (a b : PtR) (t : ℝ) (h0 : 0 ≤ t) (h1 : t ≤ 1)
    (hax : |a.x| ≤ 2 ^ 31) (hay : |a.y| ≤ 2 ^ 31)
    (hbx : |b.x| ≤ 2 ^ 31) (hby : |b.y| ≤ 2 ^ 31) :
    distR (a + smulR t (b - a)) a < f32Max := by
  obtain ⟨hax1, hax2⟩ := abs_le.mp hax
  obtain ⟨hay1, hay2⟩ := abs_le.mp hay
  obtain ⟨hbx1, hbx2⟩ := abs_le.mp hbx
  obtain ⟨hby1, hby2⟩ := abs_le.mp hby
  have hux : t * (b.x - a.x) ≤ 2 ^ 32 := by
    nlinarith [mul_nonneg h0 (show (0 : ℝ) ≤ 2 ^ 32 - (b.x - a.x) by linarith),
      mul_nonneg (show (0 : ℝ) ≤ 1 - t by linarith) (show (0 : ℝ) ≤ (2 : ℝ) ^ 32 by positivity)]
  have hlx : -(2 : ℝ) ^ 32 ≤ t * (b.x - a.x) := by
    nlinarith [mul_nonneg h0 (show (0 : ℝ) ≤ (b.x - a.x) + 2 ^ 32 by linarith),
      mul_nonneg (show (0 : ℝ) ≤ 1 - t by linarith) (show (0 : ℝ) ≤ (2 : ℝ) ^ 32 by positivity)]
  have huy : t * (b.y - a.y) ≤ 2 ^ 32 := by
    nlinarith [mul_nonneg h0 (show (0 : ℝ) ≤ 2 ^ 32 - (b.y - a.y) by linarith),
      mul_nonneg (show (0 : ℝ) ≤ 1 - t by linarith) (show (0 : ℝ) ≤ (2 : ℝ) ^ 32 by positivity)]
  have hly : -(2 : ℝ) ^ 32 ≤ t * (b.y - a.y) := by
    nlinarith [mul_nonneg h0 (show (0 : ℝ) ≤ (b.y - a.y) + 2 ^ 32 by linarith),
      mul_nonneg (show (0 : ℝ) ≤ 1 - t by linarith) (show (0 : ℝ) ≤ (2 : ℝ) ^ 32 by positivity)]
  have hsqx : (a.x + t * (b.x - a.x) - a.x) ^ 2 ≤ (2 ^ 32) ^ 2 := by
    rw [show a.x + t * (b.x - a.x) - a.x = t * (b.x - a.x) by ring]
    exact sq_le_sq' (by linarith) (by linarith)
  have hsqy : (a.y + t * (b.y - a.y) - a.y) ^ 2 ≤ (2 ^ 32) ^ 2 := by
    rw [show a.y + t * (b.y - a.y) - a.y = t * (b.y - a.y) by ring]
    exact sq_le_sq' (by linarith) (by linarith)
  have hfm2 : (2 : ℝ) ^ 254 ≤ f32Max ^ 2 := by
    have h := pow_le_pow_left₀ (show (0 : ℝ) ≤ 2 ^ 127 by positivity) two_pow_127_le_f32Max 2
    rw [← pow_mul] at h
    rw [show (127 * 2 : ℕ) = 254 by norm_num] at h
    exact h
  simp only [distR, PtR.add_def, PtR.sub_def, smulR]
  rw [Real.sqrt_lt' f32Max_pos]
  have hnum : ((2 : ℝ) ^ 32) ^ 2 + (2 ^ 32) ^ 2 < 2 ^ 254 := by norm_num
  linarith

lemma clpCandidate_some_of_cross (a b : PtR) (e : EdgeZ) (hsc : StrictCross a b e) :
    ∃ t : ℝ, 0 ≤ t ∧ t ≤ 1 ∧
      clpCandidate true a (b - a) e = some (a + smulR t (b - a)) := by
  obtain ⟨hcne, t, u, ht0, ht1, hu0, hu1, hp⟩ := hsc
  refine ⟨t, ht0.le, ht1.le, ?_⟩
  have hpx := congrArg PtR.x hp
  have hpy := congrArg PtR.y hp
  simp only [PtR.add_def, PtR.sub_def, smulR, toR] at hpx hpy
  have hccc : ((b.x - a.x) * ((e.b.y : ℝ) - (e.a.y : ℝ)) -
      (b.y - a.y) * ((e.b.x : ℝ) - (e.a.x : ℝ))) ≠ 0 := by
    simpa only [cross2dR, PtR.sub_def, toR] using hcne
  have hteq : cross2dR (toR e.a - a)
      (smulR (1 / cross2dR (b - a) (toR e.b - toR e.a)) (toR e.b - toR e.a)) = t := by
    simp only [cross2dR, smulR, PtR.sub_def, toR]
    field_simp
    linear_combination ((e.b.x : ℝ) - (e.a.x : ℝ)) * hpy - ((e.b.y : ℝ) - (e.a.y : ℝ)) * hpx
  have hueq : cross2dR (toR e.a - a)
      (smulR (1 / cross2dR (b - a) (toR e.b - toR e.a)) (b - a)) = u := by
    simp only [cross2dR, smulR, PtR.sub_def, toR]
    field_simp
    linear_combination (b.x - a.x) * hpy - (b.y - a.y) * hpx
  unfold clpCandidate
  dsimp only
  rw [if_neg hcne, hteq, hueq, if_pos ⟨hu0.le, hu1.le⟩, if_pos rfl,
    if_pos ⟨ht0.le, ht1.le⟩, ← hp]

lemma clpStep_keeps_some (st ld : PtR) (acc : Option PtR × ℝ) (e : EdgeZ)
    (h : acc.1.isSome = true) : (clpStep true st ld acc e).1.isSome = true := by
  unfold clpStep
  cases hx : clpCandidate true st ld e with
  | none => exact h
  | some q =>
    dsimp only
    split
    · rfl
    · exact h

lemma clpStep_none_inv (st ld : PtR) (acc : Option PtR × ℝ) (e : EdgeZ)
    (hinv : acc.1 = none → acc.2 = f32Max) :
    (clpStep true st ld acc e).1 = none → (clpStep true st ld acc e).2 = f32Max := by
  unfold clpStep
  cases hx : clpCandidate true st ld e with
  | none => exact hinv
  | some q =>
    dsimp only
    split
    · exact fun hcontra => Option.noConfusion hcontra
    · exact hinv

lemma clpFold_some (st ld : PtR) :
    ∀ (es : List EdgeZ) (acc : Option PtR × ℝ), acc.1.isSome = true →
      ((es.foldl (clpStep true st ld) acc)).1.isSome = true := by
  intro es
  induction es with
  | nil => exact fun acc h => h
  | cons e rest ih =>
    intro acc h
    rw [List.foldl_cons]
    exact ih _ (clpStep_keeps_some st ld acc e h)

lemma clpFold_trigger (st ld : PtR) :
    ∀ (es : List EdgeZ) (acc : Option PtR × ℝ), (acc.1 = none → acc.2 = f32Max) →
      ∀ e ∈ es, ∀ q, clpCandidate true st ld e = some q → distR q st < f32Max →
      ((es.foldl (clpStep true st ld) acc)).1.isSome = true := by
  intro es
  induction es with
  | nil =>
    intro acc _ e he
    exact absurd he (List.not_mem_nil e)
  | cons e' rest ih =>
    intro acc hinv e he q hq hd
    rw [List.foldl_cons]
    rcases List.mem_cons.mp he with heq | he'
    · subst heq
      cases hacc : acc.1 with
      | some p =>
        exact clpFold_some st ld rest _ (clpStep_keeps_some st ld acc e (by rw [hacc]; rfl))
      | none =>
        apply clpFold_some st ld rest
        unfold clpStep
        rw [hq]
        dsimp only
        rw [if_pos (by rw [hinv hacc]; exact hd)]
        rfl
    · exact ih _ (clpStep_none_inv st ld acc e' hinv) e he' q hq hd

lemma clp_none_no_cross (m : Map) (a b : PtR)
    (hnone : closestPointOfLineOnEdge m a (b - a) true = none)
    (hax : |a.x| ≤ 2 ^ 31) (hay : |a.y| ≤ 2 ^ 31)
    (hbx : |b.x| ≤ 2 ^ 31) (hby : |b.y| ≤ 2 ^ 31) :
    NoBoundaryCross m a b := by
  intro e he hsc
  obtain ⟨t, h0, h1, hcand⟩ := clpCandidate_some_of_cross a b e hsc
  have hd : distR (a + smulR t (b - a)) a < f32Max := dist_seg_lt a b t h0 h1 hax hay hbx hby
  have hsome := clpFold_trigger a (b - a) (outerEdges m) (none, f32Max)
    (fun _ => rfl) e he _ hcand hd
  unfold closestPointOfLineOnEdge at hnone
  rw [hnone] at hsome
  exact absurd hsome (by simp)

/-- C5: an edge of `nodes_and_edges_connected` between an injected point and
another node is present only when the strict boundary cast
(`closest_point_of_line_on_edge` with `strict = true`) found nothing; for
nodes within the coordinate range of the map, that means the open segment
between its endpoints strictly crosses no boundary edge. -/
theorem injected_edge_no_strict_cross (σ : List PtZ → List PtZ) (m : Map)
    (points : List PtR) (i j : Nat) (a b : PtR)
    (hij : (i, j) ∈ injectedEdges σ m points)
    (ha : ((cornersAndEdges σ m).1 ++ points)[i]? = some a)
    (hb : ((cornersAndEdges σ m).1 ++ points)[j]? = some b)
    (hax : |a.x| ≤ 2 ^ 31) (hay : |a.y| ≤ 2 ^ 31)
    (hbx : |b.x| ≤ 2 ^ 31) (hby : |b.y| ≤ 2 ^ 31) :
    NoBoundaryCross m a b := by
  unfold injectedEdges at hij
  dsimp only at hij
  rw [List.mem_flatten] at hij
  obtain ⟨l, hl, hmem⟩ := hij
  rw [List.mem_map] at hl
  obtain ⟨pip, hpip, rfl⟩ := hl
  rw [List.mem_filterMap] at hmem
  obtain ⟨nin, hnin, hif⟩ := hmem
  split at hif
  case isTrue hcond =>
    have hinj := Option.some.inj hif
    have hi : pip.1 + (cornersAndEdges σ m).1.length = i := congrArg Prod.fst hinj
    have hj : nin.1 = j := congrArg Prod.snd hinj
    rw [Bool.and_eq_true] at hcond
    have hnone : closestPointOfLineOnEdge m pip.2 (nin.2 - pip.2) true = none :=
      Option.isNone_iff_eq_none.mp hcond.1
    have hpa : ((cornersAndEdges σ m).1 ++ points)[i]? = some pip.2 := by
      rw [← hi, List.getElem?_append_right (by omega),
        show pip.1 + (cornersAndEdges σ m).1.length - (cornersAndEdges σ m).1.length = pip.1
          by omega]
      exact List.mem_enum_iff_getElem?.mp hpip
    have has : a = pip.2 := by
      rw [hpa] at ha
      exact (Option.some.inj ha).symm
    have hpb : ((cornersAndEdges σ m).1 ++ points)[j]? = some nin.2 := by
      rw [← hj]
      exact List.mem_enum_iff_getElem?.mp hnin
    have hbs : b = nin.2 := by
      rw [hpb] at hb
      exact (Option.some.inj hb).symm
    subst has
    subst hbs
    exact clp_none_no_cross m pip.2 nin.2 hnone hax hay hbx hby
  case isFalse hcond =>
    exact absurd hif (by simp)

/-- C5 witness: the lone injected edge of the empty map between (0,0) and
(1,0) crosses no boundary edge. -/
theorem injected_edge_no_strict_cross_witness :
    NoBoundaryCross ⟨[]⟩ ⟨0, 0⟩ ⟨1, 0⟩ :=
  injected_edge_no_strict_cross id ⟨[]⟩ [⟨0, 0⟩, ⟨1, 0⟩] 0 1 ⟨0, 0⟩ ⟨1, 0⟩
    (by decide) rfl rfl
    (by norm_num) (by norm_num) (by norm_num) (by norm_num)

end AoS
